import Mathlib

/-!
Verification development for the `hitori` repository (a Hitori puzzle solver).

The development shallowly embeds the two source modules:

* `hitori/union_find.py` — a union-find ("equivalence structure") over an
  arbitrary key set.  The Python `dict` mapping each key to a
  `(leader, class-size)` pair is modelled as a total function
  `leaders : α → α × Nat` together with the list `keys` of tracked keys
  (the dict's domain; off-domain values of `leaders` are never observed
  because `find` first tests membership in `keys`, exactly as the Python
  code tests `p not in self.leaders`).  The domain of the Python dict never
  changes after construction — `find` and `union` only overwrite entries of
  existing keys — so keeping `keys` fixed is faithful.  The `while True`
  loop in `find` is modelled by `findAux` with fuel `keys.length + 1`;
  under the data-structure invariant every chain reaches its root in at
  most `keys.length - 1` steps, so the fuel is never exhausted (proved in
  the lemmas below).

* `hitori/board.py` — the immutable board and the solver pipeline.  Python
  strings become `List Char`; the board is the tuple of its lines.  The
  chain of generator closures built in `solve` is defunctionalized into the
  `Stage` inductive and the recursive driver `run`, with identical control
  flow: a row/column stage either forwards an unchanged duplicate-free
  board to the next stage, or recurses into itself on each successful
  variant (keep-one variants in cell order, then the blank-all variant);
  the connectivity stage forwards or prunes; the collector inserts the
  board into the result set.  The imperative `answers.add` accumulation is
  modelled by returning the set of collected boards from each branch and
  taking unions, which yields the same final set.  The recursion of `run`
  is justified by the guard `b2.nonBlank < b.nonBlank` at the re-entry of a
  line stage; the lemma `branchCands_nonBlank_lt` proves the guard is
  always true for the rectangular boards the Python constructor admits
  (its `assert`), so the guard never changes behaviour on the domain where
  the Python program is defined.
-/

/-! ## Union-find (`hitori/union_find.py`) -/

/-- The union-find structure: the tracked key set and the `leaders` map.
`leaders x` is the `(leader, class-size)` pair stored for `x`; it is only
meaningful for `x ∈ keys`. -/
structure UnionFind (α : Type) where
  keys : List α
  leaders : α → α × Nat

variable {α : Type} [DecidableEq α]

/-- `UnionFind.__init__`: `self.leaders = {m: (m, 1) for m in members}`. -/
def UnionFind.init (members : List α) : UnionFind α :=
  ⟨members, fun m => (m, 1)⟩

/-- The `while True` loop of `UnionFind.find`, with fuel.  Each iteration
mirrors the Python body exactly: if `p == q` return `(p, n)`; otherwise set
`leaders[p] = leaders[q]` and advance `p, (q, n) = q, leaders[q]`.  The
fuel-exhausted result is never reached when called with fuel
`keys.length + 1` from a state satisfying the invariant. -/
def findAux (fuel : Nat) (f : α → α × Nat) (p q : α) (n : Nat) :
    (α × Nat) × (α → α × Nat) :=
  match fuel with
  | 0 => ((p, n), f)
  | fuel + 1 =>
    if p = q then ((p, n), f)
    else
      let f2 : α → α × Nat := fun x => if x = p then f q else f x
      findAux fuel f2 q (f2 q).1 (f2 q).2

/-- `UnionFind.find`: `(None, 0)` for an untracked key, else run the loop.
The Python method returns a pair and mutates `self`; here the updated
structure is returned alongside the result. -/
def UnionFind.find (u : UnionFind α) (p : α) : (Option α × Nat) × UnionFind α :=
  if p ∈ u.keys then
    let r := findAux (u.keys.length + 1) u.leaders p (u.leaders p).1 (u.leaders p).2
    ((some r.1.1, r.1.2), ⟨u.keys, r.2⟩)
  else ((none, 0), u)

/-- `UnionFind.union`: find both leaders (each `find` may compress paths and
its state changes persist, also in the early-return case); no-op if either
key is absent; otherwise repoint both leaders at `q`'s leader with the
summed size. -/
def UnionFind.union (u : UnionFind α) (p q : α) : UnionFind α :=
  let fp := u.find p
  let fq := fp.2.find q
  match fp.1.1, fq.1.1 with
  | some pl, some ql =>
    if pl ≠ ql then
      ⟨fq.2.keys, fun x => if x = pl ∨ x = ql then (ql, fp.1.2 + fq.1.2) else fq.2.leaders x⟩
    else fq.2
  | _, _ => fq.2

/-- `UnionFind.connected`: `self.find(p) == self.find(q)` — the two result
pairs are compared, and the second `find` runs on the state left by the
first. -/
def UnionFind.connected (u : UnionFind α) (p q : α) : Bool :=
  let fp := u.find p
  let fq := fp.2.find q
  decide (fp.1 = fq.1)

/-- Parent (leader-link) function of a leaders map. -/
def pstep (f : α → α × Nat) (x : α) : α := (f x).1

/-- A key that is its own leader (a representative). -/
def isRootF (f : α → α × Nat) (x : α) : Prop := (f x).1 = x

instance (f : α → α × Nat) (x : α) : Decidable (isRootF f x) :=
  inferInstanceAs (Decidable ((f x).1 = x))

/-- Follow leader links for at most `fuel` steps; with fuel `keys.length`
this computes the representative of any key, under the invariant. -/
def rootD (f : α → α × Nat) : Nat → α → α
  | 0, x => x
  | fuel + 1, x => if (f x).1 = x then x else rootD f fuel (f x).1

/-- The representative of `x` (well-defined under the invariant). -/
def UnionFind.rootOf (u : UnionFind α) (x : α) : α :=
  rootD u.leaders u.keys.length x

/-- An observable operation on a union-find structure. -/
inductive Op (α : Type) where
  | union (p q : α)
  | find (p : α)

/-- Run a sequence of `union`/`find` calls (states thread left to right). -/
def runOps (u : UnionFind α) : List (Op α) → UnionFind α
  | [] => u
  | Op.union p q :: rest => runOps (u.union p q) rest
  | Op.find p :: rest => runOps (u.find p).2 rest

/-- Run a sequence of `union` calls. -/
def runUnions (u : UnionFind α) : List (α × α) → UnionFind α
  | [] => u
  | pr :: rest => runUnions (u.union pr.1 pr.2) rest

/-- Specification-side relation: the reflexive-transitive-symmetric closure
of the union-ed pairs `ps` restricted to the key set `K`. -/
inductive Linked (K : List α) (ps : List (α × α)) : α → α → Prop where
  | base {a b : α} : (a, b) ∈ ps → a ∈ K → b ∈ K → Linked K ps a b
  | refl {a : α} : a ∈ K → Linked K ps a a
  | symm {a b : α} : Linked K ps a b → Linked K ps b a
  | trans {a b c : α} : Linked K ps a b → Linked K ps b c → Linked K ps a c

/-- The data-structure invariant of the union-find (spec §3): every tracked
key reaches, by following leader links, a representative that maps to
itself, and the class-size stored at a representative is the number of
tracked keys whose chains reach it. -/
structure UFInv (u : UnionFind α) : Prop where
  nodup : u.keys.Nodup
  closed : ∀ x ∈ u.keys, (u.leaders x).1 ∈ u.keys
  rooted : ∀ x ∈ u.keys, ∃ n : Nat, isRootF u.leaders ((pstep u.leaders)^[n] x)
  sizes : ∀ r ∈ u.keys, isRootF u.leaders r →
    (u.leaders r).2 = (u.keys.filter (fun x => u.rootOf x = r)).length

/-- `x`'s leader chain reaches the representative `r`. -/
def reaches (f : α → α × Nat) (x r : α) : Prop :=
  ∃ n : Nat, (pstep f)^[n] x = r ∧ isRootF f r

/-- The structural part of the invariant: distinct keys, leader links stay
inside the key set, and every chain reaches a representative. -/
structure UFBase (K : List α) (f : α → α × Nat) : Prop where
  nodup : K.Nodup
  closed : ∀ x ∈ K, pstep f x ∈ K
  rooted : ∀ x ∈ K, ∃ n : Nat, isRootF f ((pstep f)^[n] x)

/-- Decidable equality of `blank` results, used to evaluate concrete
scenarios. -/
instance {ε β : Type} [DecidableEq ε] [DecidableEq β] : DecidableEq (Except ε β) :=
  fun a b =>
    match a, b with
    | Except.error e1, Except.error e2 =>
      if h : e1 = e2 then isTrue (by rw [h]) else isFalse (by simp [h])
    | Except.ok v1, Except.ok v2 =>
      if h : v1 = v2 then isTrue (by rw [h]) else isFalse (by simp [h])
    | Except.error _, Except.ok _ => isFalse (by simp)
    | Except.ok _, Except.error _ => isFalse (by simp)

/-! ## The board (`hitori/board.py`) -/

/-- A Hitori board: the tuple of its lines (Python strings become lists of
characters). -/
structure Hitori where
  lines : List (List Char)
  deriving DecidableEq

/-- `Hitori.BLANK = '#'`. -/
def BLANK : Char := '#'

/-- The single failure mode of `Hitori.blank` (the `ValueError` raised for
an adjacent blank).  Raising is modelled by returning `Except.error`; the
receiver is a value and is never changed by a call. -/
inductive BlankError where
  | adjacent
  deriving DecidableEq

/-- Width: `len(self.lines[0])` (the Python code indexes line 0; for the
empty board that raises, here `headD` supplies `[]` — the claims below
only concern nonempty boards). -/
def Hitori.width (b : Hitori) : Nat := (b.lines.headD []).length

/-- Height: `len(self.lines)`. -/
def Hitori.height (b : Hitori) : Nat := b.lines.length

/-- `size()` returns `(width, height)`. -/
def Hitori.size (b : Hitori) : Nat × Nat := (b.width, b.height)

/-- `self[x, y] = self.lines[y][x]`.  Coordinates are integers because the
neighbour arithmetic in `blank`/`is_blank` produces `-1` at the edges; the
callers below only read in-range cells (Python would raise otherwise), so
the `getD` defaults are never observed there. -/
def Hitori.getc (b : Hitori) (x y : Int) : Char :=
  (b.lines.getD y.toNat []).getD x.toNat '?'

/-- `is_blank`: in-range and equal to the BLANK marker; out-of-range
coordinates count as not blank. -/
def Hitori.is_blank (b : Hitori) (x y : Int) : Bool :=
  decide (0 ≤ x) && decide (x < (b.width : Int)) && decide (0 ≤ y) &&
    decide (y < (b.height : Int)) && (b.getc x y == BLANK)

/-- `blank(x, y)`: raise if any orthogonal neighbour is blank, else return
a new board whose line `y` is `lines[y][:x] + BLANK + lines[y][x+1:]`.
For the in-range coordinates used by every caller the slice expression
replaces the character at `x`. -/
def Hitori.blank (b : Hitori) (x y : Int) : Except BlankError Hitori :=
  if b.is_blank (x - 1) y || b.is_blank (x + 1) y || b.is_blank x (y - 1) ||
      b.is_blank x (y + 1) then
    Except.error BlankError.adjacent
  else
    Except.ok ⟨b.lines.set y.toNat
      ((b.lines.getD y.toNat []).take x.toNat ++ [BLANK] ++
        (b.lines.getD y.toNat []).drop (x.toNat + 1))⟩

/-- The constructor's precondition check
`assert all(len(l) == len(lines[0]) for l in lines)`: construction fails
(returns `none`) unless every line has the first line's length. -/
def Hitori.make (lines : List (List Char)) : Option Hitori :=
  if lines.all (fun l => l.length == (lines.headD []).length) then
    some ⟨lines⟩
  else none

/-- `row(y)`: the coordinates `[(x, y) for x in range(len(lines[0]))]`. -/
def Hitori.rowCoords (b : Hitori) (y : Nat) : List (Int × Int) :=
  (List.range b.width).map fun x : Nat => ((x : Int), (y : Int))

/-- `col(x)`: the coordinates `[(x, y) for y in range(len(lines))]`. -/
def Hitori.colCoords (b : Hitori) (x : Nat) : List (Int × Int) :=
  (List.range b.height).map fun y : Nat => ((x : Int), (y : Int))

/-- Number of non-blank characters on the board (the driver's termination
measure: every successful `blank` of a non-blank in-range cell decreases
it). -/
def Hitori.nonBlank (b : Hitori) : Nat :=
  (b.lines.map (fun l => l.countP (fun ch => !(ch == BLANK)))).sum

/-! ### Duplicate grouping in `blank_some` -/

/-- Append a cell to the group of its value, keeping the groups in
first-occurrence order (the behaviour of `defaultdict(list)` together with
Python's insertion-ordered dict iteration). -/
def addGroup (gs : List (Char × List (Int × Int))) (v : Char) (c : Int × Int) :
    List (Char × List (Int × Int)) :=
  match gs with
  | [] => [(v, [c])]
  | g :: rest => if g.1 = v then (g.1, g.2 ++ [c]) :: rest else g :: addGroup rest v c

/-- The `counts` dictionary of `blank_some`: the given cells, grouped by
their character value.  Blank cells are filtered out by the caller. -/
def groupVals (b : Hitori) (cs : List (Int × Int)) : List (Char × List (Int × Int)) :=
  cs.foldl (fun gs c => addGroup gs (b.getc c.1 c.2) c) []

/-- Lookup of a value's group. -/
def lookupGroup (gs : List (Char × List (Int × Int))) (v : Char) : List (Int × Int) :=
  match gs with
  | [] => []
  | g :: rest => if g.1 = v then g.2 else lookupGroup rest v

/-- The first duplicate group of the given line cells: group the non-blank
cells by value and return the first group (in insertion order) with more
than one member — exactly the group the `for value, where in
counts.items()` loop of `blank_some` processes before returning. -/
def firstDup (b : Hitori) (cells : List (Int × Int)) : Option (List (Int × Int)) :=
  ((groupVals b (cells.filter (fun c => !(b.is_blank c.1 c.2)))).find?
      (fun g => decide (1 < g.2.length))).map (fun g => g.2)

/-- Blank the listed cells in order, abandoning the candidate on the first
adjacency violation (the `try ... except ValueError: break` / `for-else`
pattern of `blank_some`). -/
def tryBlanks (b : Hitori) (cs : List (Int × Int)) : Option Hitori :=
  cs.foldl (fun ob c => ob.bind (fun b2 => (b2.blank c.1 c.2).toOption)) (some b)

/-- The successful candidate boards produced for one duplicate group `wh`:
for each member `k` the keep-`k` variant (blank every other member), then
the blank-all variant. -/
def branchCands (b : Hitori) (wh : List (Int × Int)) : List Hitori :=
  ((wh.map (fun k => tryBlanks b (wh.filter (fun c => c ≠ k)))) ++
    [tryBlanks b wh]).filterMap id

/-! ### Connectivity check -/

/-- The non-blank coordinates of the board.  The Python code builds a
`set` and iterates it in an unspecified order; the order affects only
which representatives the union-find picks, not the size comparison that
`check_connectedness` observes (the lemmas below characterise that
comparison order-independently), so a fixed row-major order is used. -/
def Hitori.nonBlankCoords (b : Hitori) : List (Int × Int) :=
  (List.range b.height).flatMap (fun y : Nat =>
    (List.range b.width).filterMap (fun x : Nat =>
      if b.is_blank (x : Int) (y : Int) then none
      else some ((x : Int), (y : Int))))

/-- The four `uf.union` calls done for one cell in `check_connectedness`
(unioning with an absent neighbour key is a no-op). -/
def unionNbrs (u : UnionFind (Int × Int)) (c : Int × Int) : UnionFind (Int × Int) :=
  (((u.union c (c.1 - 1, c.2)).union c (c.1 + 1, c.2)).union c
    (c.1, c.2 - 1)).union c (c.1, c.2 + 1)

/-- `check_connectedness`'s acceptance test: vacuously true with no
non-blank cells, else the class size found at the last-iterated cell must
equal the number of non-blank cells. -/
def connCheck (b : Hitori) : Bool :=
  let cells := b.nonBlankCoords
  if 0 < cells.length then
    let uf := cells.foldl unionNbrs (UnionFind.init cells)
    decide ((uf.find (cells.getLastD ((0 : Int), (0 : Int)))).1.2 = cells.length)
  else true

/-! ### The solver pipeline -/

/-- A defunctionalized pipeline stage: the partially-applied generator
closures of `solve` (`blank_some` over a row or column selector,
`check_connectedness`, `collect_candidate`). -/
inductive Stage where
  | row (y : Nat)
  | col (x : Nat)
  | conn
  | collect
  deriving DecidableEq

/-- The pipeline driver: `generators[0](board, generators)`.  A line stage
with no duplicate group forwards to the next stage; with a duplicate group
it recurses into itself on every successful candidate and the union of the
branches' result sets is returned (matching the imperative accumulation
into the shared `answers` set).  The guard `b2.nonBlank < b.nonBlank`
discharges termination; `branchCands_nonBlank_lt` below proves it holds
for every candidate whenever the board is rectangular (which the Python
constructor's `assert` guarantees for every board that exists at runtime),
so the `∅` alternative is dead code on the Python-reachable domain. -/
def run (b : Hitori) (ss : List Stage) : Finset Hitori :=
  match ss with
  | [] => ∅
  | Stage.conn :: rest => if connCheck b then run b rest else ∅
  | Stage.collect :: rest => insert b (run b rest)
  | Stage.row y :: rest =>
    match firstDup b (b.rowCoords y) with
    | none => run b rest
    | some wh =>
      ((branchCands b wh).map (fun b2 =>
        if h : b2.nonBlank < b.nonBlank then run b2 (Stage.row y :: rest)
        else ∅)).foldr (fun s acc => s ∪ acc) ∅
  | Stage.col x :: rest =>
    match firstDup b (b.colCoords x) with
    | none => run b rest
    | some wh =>
      ((branchCands b wh).map (fun b2 =>
        if h : b2.nonBlank < b.nonBlank then run b2 (Stage.col x :: rest)
        else ∅)).foldr (fun s acc => s ∪ acc) ∅
termination_by (b.nonBlank, ss.length)
decreasing_by
  · exact Prod.Lex.right _ (by simp)
  · exact Prod.Lex.right _ (by simp)
  · exact Prod.Lex.right _ (by simp)
  · exact Prod.Lex.left _ _ h
  · exact Prod.Lex.right _ (by simp)
  · exact Prod.Lex.left _ _ h

/-- `solve`: build the stage list (one per row, one per column, the
connectivity filter, the collector) and invoke the chain on the input
board; the accumulated answer set is the result. -/
def solve (b : Hitori) : Finset Hitori :=
  let mx := b.size.1
  let my := b.size.2
  run b (((List.range my).map Stage.row) ++ ((List.range mx).map Stage.col) ++
    [Stage.conn, Stage.collect])

/-! ### Specification-side predicates for the Hitori conditions -/

/-- Rectangularity: every line has the first line's length.  The Python
constructor asserts exactly this, so every `Hitori` object that exists at
runtime satisfies it. -/
def Hitori.wf (b : Hitori) : Prop := ∀ l ∈ b.lines, l.length = b.width

/-- A well-formed puzzle input: rectangular, at least one line (the Python
`solve` indexes `lines[0]`), and no BLANK sentinel among the symbols. -/
def WellFormed (b : Hitori) : Prop :=
  b.wf ∧ b.lines ≠ [] ∧ ∀ l ∈ b.lines, ∀ ch ∈ l, ch ≠ BLANK

instance (b : Hitori) : Decidable b.wf :=
  inferInstanceAs (Decidable (∀ l ∈ b.lines, l.length = b.width))

instance (b : Hitori) : Decidable (WellFormed b) :=
  inferInstanceAs (Decidable (_ ∧ _ ∧ _))

/-- No two distinct non-blank cells among `cells` carry the same symbol. -/
def cellsClean (b : Hitori) (cells : List (Int × Int)) : Prop :=
  ∀ c1 ∈ cells, ∀ c2 ∈ cells, c1 ≠ c2 →
    b.is_blank c1.1 c1.2 = false → b.is_blank c2.1 c2.2 = false →
    b.getc c1.1 c1.2 ≠ b.getc c2.1 c2.2

/-- Hitori condition (b) for rows: no row contains two non-blank cells
with the same symbol. -/
def rowsOK (b : Hitori) : Prop := ∀ y < b.height, cellsClean b (b.rowCoords y)

/-- Hitori condition (b) for columns. -/
def colsOK (b : Hitori) : Prop := ∀ x < b.width, cellsClean b (b.colCoords x)

/-- Hitori condition (a): no two blanked cells are orthogonally adjacent
(stated for the two positive directions, which by symmetry covers all four). -/
def adjOK (b : Hitori) : Prop :=
  ∀ x y : Int, ¬(b.is_blank x y = true ∧ b.is_blank (x + 1) y = true) ∧
    ¬(b.is_blank x y = true ∧ b.is_blank x (y + 1) = true)

/-- Orthogonal adjacency of two coordinates. -/
def adjacent (c d : Int × Int) : Prop :=
  d = (c.1 + 1, c.2) ∨ d = (c.1 - 1, c.2) ∨ d = (c.1, c.2 + 1) ∨ d = (c.1, c.2 - 1)

/-- One step between orthogonally adjacent non-blank cells. -/
def adjStep (b : Hitori) (c d : Int × Int) : Prop :=
  c ∈ b.nonBlankCoords ∧ d ∈ b.nonBlankCoords ∧ adjacent c d

/-- Hitori condition (c): the non-blank cells form a single
orthogonally-connected region. -/
def oneRegion (b : Hitori) : Prop :=
  ∀ c ∈ b.nonBlankCoords, ∀ d ∈ b.nonBlankCoords,
    Relation.ReflTransGen (adjStep b) c d

/-- One successful in-range blanking step between boards. -/
def blankStep (a a2 : Hitori) : Prop :=
  ∃ x y : Nat, x < a.width ∧ y < a.height ∧ a.blank (x : Int) (y : Int) = Except.ok a2

/-- Zero or more successful in-range blanking steps. -/
def Blanks (a a2 : Hitori) : Prop := Relation.ReflTransGen blankStep a a2

/-- A line stage whose index is in range for the board (`False` for the
non-line stages, so a hypothesis `∀ s ∈ ls, stageOK s b` also expresses
that `ls` holds only line stages). -/
def stageOK (s : Stage) (b : Hitori) : Prop :=
  match s with
  | Stage.row y => y < b.height
  | Stage.col x => x < b.width
  | Stage.conn => False
  | Stage.collect => False

/-- The postcondition a line stage establishes: its line is duplicate-free. -/
def linePost (s : Stage) (b : Hitori) : Prop :=
  match s with
  | Stage.row y => cellsClean b (b.rowCoords y)
  | Stage.col x => cellsClean b (b.colCoords x)
  | Stage.conn => True
  | Stage.collect => True

/-- A coordinate inside the board's dimensions. -/
def inDims (b : Hitori) (c : Int × Int) : Prop :=
  0 ≤ c.1 ∧ c.1 < (b.width : Int) ∧ 0 ≤ c.2 ∧ c.2 < (b.height : Int)

/-- The (cell, neighbour) pairs unioned by `check_connectedness`, in order. -/
def nbrPairs (cells : List (Int × Int)) : List ((Int × Int) × (Int × Int)) :=
  cells.flatMap (fun c =>
    [(c, (c.1 - 1, c.2)), (c, (c.1 + 1, c.2)), (c, (c.1, c.2 - 1)), (c, (c.1, c.2 + 1))])

/-! # Theorems -/

/-! ## Generic helpers -/

theorem mem_foldr_union {β : Type} [DecidableEq β] {l : List (Finset β)} {r : β} :
    r ∈ l.foldr (fun s acc => s ∪ acc) ∅ ↔ ∃ t ∈ l, r ∈ t := by
  induction l with
  | nil => simp
  | cons s l ih => simp [ih]

theorem rtg_symm {β : Type} {rel : β → β → Prop} (hs : ∀ a b, rel a b → rel b a)
    {a b : β} (h : Relation.ReflTransGen rel a b) : Relation.ReflTransGen rel b a := by
  induction h with
  | refl => exact Relation.ReflTransGen.refl
  | tail _ h2 ih =>
    exact Relation.ReflTransGen.trans (Relation.ReflTransGen.single (hs _ _ h2)) ih

theorem filter_or_length {β : Type} (l : List β) (p q : β → Bool)
    (h : ∀ x ∈ l, ¬(p x = true ∧ q x = true)) :
    (l.filter (fun x => p x || q x)).length =
      (l.filter p).length + (l.filter q).length := by
  induction l with
  | nil => simp
  | cons a l ih =>
    have ha := h a (List.mem_cons_self a l)
    have ih' := ih (fun x hx => h x (List.mem_cons_of_mem a hx))
    by_cases hp : p a = true
    · have hq : ¬ q a = true := fun hq => ha ⟨hp, hq⟩
      simp [List.filter_cons, hp, hq, ih']
      omega
    · by_cases hq : q a = true <;> simp [List.filter_cons, hp, hq, ih'] <;> omega

/-! ## Union-find: leader chains and representatives -/

theorem pstep_iterate_mem {K : List α} {f : α → α × Nat}
    (hclosed : ∀ x ∈ K, pstep f x ∈ K) {x : α} (hx : x ∈ K) :
    ∀ n, (pstep f)^[n] x ∈ K := by
  intro n
  induction n with
  | zero => simpa using hx
  | succ n ih => rw [Function.iterate_succ_apply']; exact hclosed _ ih

theorem iterate_fixed_root {f : α → α × Nat} {r : α} (h : isRootF f r) (n : Nat) :
    (pstep f)^[n] r = r :=
  Function.iterate_fixed (show pstep f r = r from h) n

theorem iterate_stable {f : α → α × Nat} {x r : α} {n : Nat}
    (hn : (pstep f)^[n] x = r) (hr : isRootF f r) {m : Nat} (h : n ≤ m) :
    (pstep f)^[m] x = r := by
  have h2 := Function.iterate_add_apply (pstep f) (m - n) n x
  rw [hn] at h2
  rw [show m = m - n + n by omega, h2, iterate_fixed_root hr]

theorem reaches_self {f : α → α × Nat} {r : α} (h : isRootF f r) : reaches f r r :=
  ⟨0, rfl, h⟩

theorem reaches_step {f : α → α × Nat} {x r : α} (h : reaches f (pstep f x) r) :
    reaches f x r := by
  obtain ⟨n, hn, hr⟩ := h
  exact ⟨n + 1, by rw [Function.iterate_succ_apply]; exact hn, hr⟩

theorem reaches_unique {f : α → α × Nat} {x r1 r2 : α}
    (h1 : reaches f x r1) (h2 : reaches f x r2) : r1 = r2 := by
  obtain ⟨n1, hn1, hr1⟩ := h1
  obtain ⟨n2, hn2, hr2⟩ := h2
  have e1 : (pstep f)^[max n1 n2] x = r1 := iterate_stable hn1 hr1 (Nat.le_max_left _ _)
  have e2 : (pstep f)^[max n1 n2] x = r2 := iterate_stable hn2 hr2 (Nat.le_max_right _ _)
  rw [← e1, e2]

theorem exists_minRoot {f : α → α × Nat} {x : α}
    (h : ∃ n : Nat, isRootF f ((pstep f)^[n] x)) :
    ∃ d : Nat, isRootF f ((pstep f)^[d] x) ∧ ∀ i < d, ¬ isRootF f ((pstep f)^[i] x) :=
  ⟨Nat.find h, Nat.find_spec h, fun i hi => Nat.find_min h hi⟩

theorem chain_inj {f : α → α × Nat} {x : α} {d : Nat}
    (hroot : isRootF f ((pstep f)^[d] x))
    (hmin : ∀ i < d, ¬ isRootF f ((pstep f)^[i] x)) :
    ∀ i ≤ d, ∀ j ≤ d, (pstep f)^[i] x = (pstep f)^[j] x → i = j := by
  suffices H : ∀ i j, i ≤ d → j ≤ d → i < j → (pstep f)^[i] x ≠ (pstep f)^[j] x by
    intro i hi j hj heq
    rcases Nat.lt_trichotomy i j with h | h | h
    · exact absurd heq (H i j hi hj h)
    · exact h
    · exact absurd heq.symm (H j i hj hi h)
  intro i j hi hj hij heq
  have h1 : (pstep f)^[d - j + i] x = (pstep f)^[d - j] ((pstep f)^[i] x) :=
    Function.iterate_add_apply _ _ _ _
  have h2 : (pstep f)^[d - j + j] x = (pstep f)^[d - j] ((pstep f)^[j] x) :=
    Function.iterate_add_apply _ _ _ _
  rw [show d - j + j = d by omega] at h2
  have h3 : (pstep f)^[d - j + i] x = (pstep f)^[d] x := by rw [h1, heq, ← h2]
  refine hmin (d - j + i) (by omega) ?_
  rw [h3]
  exact hroot

theorem minDepth_lt_card {K : List α} {f : α → α × Nat} {x : α} {d : Nat}
    (base : UFBase K f) (hx : x ∈ K)
    (hroot : isRootF f ((pstep f)^[d] x))
    (hmin : ∀ i < d, ¬ isRootF f ((pstep f)^[i] x)) :
    d < K.length := by
  by_contra hcon
  push_neg at hcon
  have hnodup : ((List.range (d + 1)).map (fun i => (pstep f)^[i] x)).Nodup := by
    refine List.Nodup.map_on ?_ (List.nodup_range _)
    intro i hi j hj hij
    rw [List.mem_range] at hi hj
    exact chain_inj hroot hmin i (by omega) j (by omega) hij
  have hsub : ((List.range (d + 1)).map (fun i => (pstep f)^[i] x)).toFinset ⊆
      K.toFinset := by
    intro a ha
    rw [List.mem_toFinset] at ha ⊢
    obtain ⟨i, _, rfl⟩ := List.mem_map.1 ha
    exact pstep_iterate_mem base.closed hx i
  have hcard := Finset.card_le_card hsub
  rw [List.toFinset_card_of_nodup hnodup] at hcard
  have hK := List.toFinset_card_le K
  rw [List.length_map, List.length_range] at hcard
  omega

theorem rootD_eq {f : α → α × Nat} {x : α} {d : Nat}
    (hroot : isRootF f ((pstep f)^[d] x))
    (hmin : ∀ i < d, ¬ isRootF f ((pstep f)^[i] x)) :
    ∀ fuel, d ≤ fuel → rootD f fuel x = (pstep f)^[d] x := by
  induction d generalizing x with
  | zero =>
    intro fuel _
    simp only [Function.iterate_zero_apply] at hroot ⊢
    cases fuel with
    | zero => rfl
    | succ fu =>
      rw [rootD]
      exact if_pos (show (f x).1 = x from hroot)
  | succ d ih =>
    intro fuel hfuel
    have hnr : ¬ (f x).1 = x := by
      have := hmin 0 (by omega)
      simpa [isRootF] using this
    match fuel, hfuel with
    | fuel + 1, _ =>
      rw [rootD, if_neg hnr]
      have hroot' : isRootF f ((pstep f)^[d] (pstep f x)) := by
        rw [← Function.iterate_succ_apply]
        exact hroot
      have hmin' : ∀ i < d, ¬ isRootF f ((pstep f)^[i] (pstep f x)) := by
        intro i hi
        have h1 := hmin (i + 1) (by omega)
        rwa [Function.iterate_succ_apply] at h1
      have hgoal := ih hroot' hmin' fuel (by omega)
      rw [show (pstep f)^[d] (pstep f x) = (pstep f)^[d + 1] x from
        (Function.iterate_succ_apply _ _ _).symm] at hgoal
      exact hgoal

theorem rootD_reaches {K : List α} {f : α → α × Nat} (base : UFBase K f) {x : α}
    (hx : x ∈ K) : reaches f x (rootD f K.length x) := by
  obtain ⟨d, hroot, hmin⟩ := exists_minRoot (base.rooted x hx)
  have hd : d < K.length := minDepth_lt_card base hx hroot hmin
  rw [rootD_eq hroot hmin _ (le_of_lt hd)]
  exact ⟨d, rfl, hroot⟩

theorem reaches_iff_rootD {K : List α} {f : α → α × Nat} (base : UFBase K f)
    {x r : α} (hx : x ∈ K) : reaches f x r ↔ rootD f K.length x = r :=
  ⟨fun h => reaches_unique (rootD_reaches base hx) h,
   fun h => h ▸ rootD_reaches base hx⟩

theorem rootD_isRoot {K : List α} {f : α → α × Nat} (base : UFBase K f) {x : α}
    (hx : x ∈ K) : isRootF f (rootD f K.length x) := by
  obtain ⟨n, hn, hr⟩ := rootD_reaches base hx
  exact hr

theorem rootD_mem {K : List α} {f : α → α × Nat} (base : UFBase K f) {x : α}
    (hx : x ∈ K) : rootD f K.length x ∈ K := by
  obtain ⟨n, hn, _⟩ := rootD_reaches base hx
  rw [← hn]
  exact pstep_iterate_mem base.closed hx n

theorem rootD_of_isRoot {K : List α} {f : α → α × Nat} (base : UFBase K f) {x : α}
    (hx : x ∈ K) (h : isRootF f x) : rootD f K.length x = x :=
  (reaches_iff_rootD base hx).1 (reaches_self h)

/-! ## The `find` walk: path halving -/

theorem findAux_succ (fuel : Nat) (f : α → α × Nat) (p q : α) (n : Nat) :
    findAux (fuel + 1) f p q n =
      if p = q then ((p, n), f)
      else findAux fuel (fun x => if x = p then f q else f x) q
        ((fun x : α => if x = p then f q else f x) q).1
        ((fun x : α => if x = p then f q else f x) q).2 := rfl

theorem iterate_congr_on {f g : α → α × Nat} {x : α} {n : Nat}
    (h : ∀ i < n, pstep g ((pstep f)^[i] x) = pstep f ((pstep f)^[i] x)) :
    (pstep g)^[n] x = (pstep f)^[n] x := by
  induction n with
  | zero => rfl
  | succ n ih =>
    rw [Function.iterate_succ_apply', Function.iterate_succ_apply',
      ih (fun i hi => h i (by omega)), h n (by omega)]

theorem findAux_run {f : α → α × Nat} {p : α} {d : Nat}
    (hroot : isRootF f ((pstep f)^[d] p))
    (hmin : ∀ i < d, ¬ isRootF f ((pstep f)^[i] p)) :
    ∀ fuel, d < fuel →
      (findAux fuel f p (f p).1 (f p).2).1 =
        ((pstep f)^[d] p, (f ((pstep f)^[d] p)).2) ∧
      (∀ x, (∀ i < d, x ≠ (pstep f)^[i] p) →
        (findAux fuel f p (f p).1 (f p).2).2 x = f x) ∧
      (∀ i < d, (findAux fuel f p (f p).1 (f p).2).2 ((pstep f)^[i] p) =
        f ((pstep f)^[i + 1] p)) := by
  induction d generalizing f p with
  | zero =>
    intro fuel hfuel
    match fuel, hfuel with
    | fuel + 1, _ =>
      have hr : p = (f p).1 := by
        have h0 : isRootF f p := by simpa using hroot
        exact h0.symm
      rw [findAux_succ, if_pos hr]
      exact ⟨by simp, fun x _ => rfl, fun i hi => by omega⟩
  | succ d ih =>
    intro fuel hfuel
    match fuel, hfuel with
    | fuel + 1, hf' =>
      have hnr : ¬ p = (f p).1 := by
        have h0 := hmin 0 (by omega)
        simp only [Function.iterate_zero_apply] at h0
        exact fun h => h0 h.symm
      rw [findAux_succ, if_neg hnr]
      set q := (f p).1 with hq
      set f2 : α → α × Nat := fun x => if x = p then f q else f x with hf2
      have hqp : q = pstep f p := rfl
      have hqi : ∀ i, (pstep f)^[i] q = (pstep f)^[i + 1] p := by
        intro i
        rw [Function.iterate_succ_apply]
        exact rfl
      have hne_p : ∀ i ≤ d, (pstep f)^[i + 1] p ≠ p := by
        intro i hi heq
        have h0 : (pstep f)^[0] p = p := rfl
        have := chain_inj hroot hmin (i + 1) (by omega) 0 (by omega) (heq.trans h0.symm)
        omega
      have hf2on : ∀ y, y ≠ p → f2 y = f y := by
        intro y hy
        rw [hf2]
        simp [hy]
      have hagree : ∀ i < d, pstep f2 ((pstep f)^[i] q) = pstep f ((pstep f)^[i] q) := by
        intro i hi
        rw [hqi]
        show (f2 ((pstep f)^[i + 1] p)).1 = (f ((pstep f)^[i + 1] p)).1
        rw [hf2on _ (hne_p i (by omega))]
      have hiter2 : ∀ i ≤ d, (pstep f2)^[i] q = (pstep f)^[i] q := by
        intro i hi
        exact iterate_congr_on (fun j hj => hagree j (by omega))
      have hroot2 : isRootF f2 ((pstep f2)^[d] q) := by
        rw [hiter2 d (by omega), hqi]
        show (f2 ((pstep f)^[d + 1] p)).1 = (pstep f)^[d + 1] p
        rw [hf2on _ (hne_p d (by omega))]
        exact hroot
      have hmin2 : ∀ i < d, ¬ isRootF f2 ((pstep f2)^[i] q) := by
        intro i hi
        rw [hiter2 i (by omega), hqi]
        intro hcon
        apply hmin (i + 1) (by omega)
        show (f ((pstep f)^[i + 1] p)).1 = (pstep f)^[i + 1] p
        rw [← hf2on _ (hne_p i (by omega))]
        exact hcon
      obtain ⟨ih1, ih2, ih3⟩ := ih hroot2 hmin2 fuel (by omega)
      refine ⟨?_, ?_, ?_⟩
      · rw [ih1, hiter2 d (by omega), hqi]
        rw [hf2on _ (hne_p d (by omega))]
      · intro x hx
        have hxp : x ≠ p := by
          have := hx 0 (by omega)
          simpa using this
        have hx2 : ∀ i < d, x ≠ (pstep f2)^[i] q := by
          intro i hi
          rw [hiter2 i (by omega), hqi]
          exact hx (i + 1) (by omega)
        rw [ih2 x hx2]
        exact hf2on x hxp
      · intro i hi
        cases i with
        | zero =>
          have hp2 : ∀ j < d, p ≠ (pstep f2)^[j] q := by
            intro j hj
            rw [hiter2 j (by omega), hqi]
            exact fun h => hne_p j (by omega) h.symm
          rw [show (pstep f)^[0] p = p from rfl, ih2 p hp2]
          have hfp : f2 p = f q := by
            rw [hf2]
            show (if p = p then f q else f p) = f q
            exact if_pos rfl
          rw [hfp]
          exact rfl
        | succ i' =>
          have hlt : i' < d := by omega
          have hnode : (pstep f)^[i' + 1] p = (pstep f2)^[i'] q := by
            rw [hiter2 i' (by omega), hqi]
          rw [hnode, ih3 i' hlt]
          rw [hiter2 (i' + 1) (by omega), hqi]
          rw [hf2on _ (hne_p (i' + 1) (by omega))]

theorem reaches_of_halving {f g : α → α × Nat}
    (hstep : ∀ x, g x = f x ∨ g x = f (pstep f x))
    (hrootfix : ∀ x, isRootF f x → g x = f x) :
    ∀ n x r, (pstep f)^[n] x = r → isRootF f r → reaches g x r := by
  intro n
  induction n using Nat.strong_induction_on with
  | _ n ih =>
    intro x r hn hr
    by_cases hx : isRootF f x
    · have hxr : x = r := by rw [← hn, iterate_fixed_root hx]
      subst hxr
      refine reaches_self ?_
      show (g x).1 = x
      rw [hrootfix x hx]
      exact hx
    · have hn1 : n ≠ 0 := by
        rintro rfl
        apply hx
        have hx0 : (pstep f)^[0] x = x := rfl
        rw [hx0] at hn
        rw [hn]
        exact hr
      obtain ⟨m, rfl⟩ : ∃ m, n = m + 1 := ⟨n - 1, by omega⟩
      rcases hstep x with hgx | hgx
      · have hrec : (pstep f)^[m] (pstep f x) = r := by
          rw [← Function.iterate_succ_apply]
          exact hn
        have hreach := ih m (by omega) (pstep f x) r hrec hr
        refine reaches_step ?_
        have hpg : pstep g x = pstep f x := by
          show (g x).1 = (f x).1
          rw [hgx]
        rw [hpg]
        exact hreach
      · by_cases hpx : isRootF f (pstep f x)
        · have hpr : pstep f x = r := by
            rw [← hn, Function.iterate_succ_apply, iterate_fixed_root hpx]
          have hgx1 : pstep g x = r := by
            show (g x).1 = r
            rw [hgx, hpr]
            exact hr
          refine reaches_step ?_
          rw [hgx1]
          refine reaches_self ?_
          show (g r).1 = r
          rw [hrootfix r hr]
          exact hr
        · have hm1 : m ≠ 0 := by
            rintro rfl
            apply hpx
            have h1 : (pstep f)^[1] x = r := hn
            rw [Function.iterate_one] at h1
            rw [h1]
            exact hr
          obtain ⟨m', rfl⟩ : ∃ m', m = m' + 1 := ⟨m - 1, by omega⟩
          have hrec : (pstep f)^[m'] (pstep f (pstep f x)) = r := by
            rw [← Function.iterate_succ_apply, ← Function.iterate_succ_apply]
            exact hn
          have hrch := ih m' (by omega) _ r hrec hr
          have hpg : pstep g x = pstep f (pstep f x) := by
            show (g x).1 = (f (pstep f x)).1
            rw [hgx]
          exact reaches_step (by rw [hpg]; exact hrch)

theorem isRoot_iff_of_halving {f g : α → α × Nat}
    (hstep : ∀ x, g x = f x ∨ g x = f (pstep f x))
    (hrootfix : ∀ x, isRootF f x → g x = f x)
    {x : α} (hx : ∃ n : Nat, isRootF f ((pstep f)^[n] x)) :
    isRootF g x ↔ isRootF f x := by
  constructor
  · intro hg
    by_contra hf
    rcases hstep x with h | h
    · apply hf
      show (f x).1 = x
      have hg1 : (g x).1 = x := hg
      rwa [h] at hg1
    · have hxx : pstep f (pstep f x) = x := by
        show (f (pstep f x)).1 = x
        have hg1 : (g x).1 = x := hg
        rwa [h] at hg1
      obtain ⟨n, hn⟩ := hx
      have hcyc : ∀ k : Nat, (pstep f)^[k] x = x ∨ (pstep f)^[k] x = pstep f x := by
        intro k
        induction k with
        | zero => left; rfl
        | succ k ihk =>
          rcases ihk with hk | hk
          · right
            rw [Function.iterate_succ_apply', hk]
          · left
            rw [Function.iterate_succ_apply', hk, hxx]
      rcases hcyc n with h2 | h2
      · rw [h2] at hn
        exact hf hn
      · rw [h2] at hn
        have e1 : pstep f (pstep f x) = pstep f x := hn
        have e2 : pstep f x = x := e1.symm.trans hxx
        exact hf e2
  · intro hfx
    show (g x).1 = x
    rw [hrootfix x hfx]
    exact hfx

theorem ufbase_of_halving {K : List α} {f g : α → α × Nat} (base : UFBase K f)
    (hstep : ∀ x, g x = f x ∨ g x = f (pstep f x))
    (hrootfix : ∀ x, isRootF f x → g x = f x) :
    UFBase K g ∧ (∀ x ∈ K, rootD g K.length x = rootD f K.length x) := by
  have hclosed : ∀ x ∈ K, pstep g x ∈ K := by
    intro x hx
    rcases hstep x with h | h
    · show (g x).1 ∈ K
      rw [h]
      exact base.closed x hx
    · show (g x).1 ∈ K
      rw [h]
      exact base.closed _ (base.closed x hx)
  have hreach : ∀ x ∈ K, reaches g x (rootD f K.length x) := by
    intro x hx
    obtain ⟨n, hn, hr⟩ := rootD_reaches base hx
    exact reaches_of_halving hstep hrootfix n x _ hn hr
  have hbase : UFBase K g := by
    refine ⟨base.nodup, hclosed, ?_⟩
    intro x hx
    obtain ⟨n, hn, hr⟩ := hreach x hx
    exact ⟨n, by rw [hn]; exact hr⟩
  exact ⟨hbase, fun x hx => (reaches_iff_rootD hbase hx).1 (hreach x hx)⟩

/-! ## Specification of `find` -/

theorem find_not_mem {u : UnionFind α} {p : α} (hp : p ∉ u.keys) :
    u.find p = ((none, 0), u) := by
  rw [UnionFind.find, if_neg hp]

theorem ufbase_of_inv {u : UnionFind α} (inv : UFInv u) : UFBase u.keys u.leaders :=
  ⟨inv.nodup, inv.closed, inv.rooted⟩

theorem find_spec {u : UnionFind α} (inv : UFInv u) {p : α} (hp : p ∈ u.keys) :
    (u.find p).1 = (some (u.rootOf p), (u.leaders (u.rootOf p)).2) ∧
    (u.find p).2.keys = u.keys ∧
    (∀ x, (u.find p).2.leaders x = u.leaders x ∨
      (u.find p).2.leaders x = u.leaders ((u.leaders x).1)) ∧
    (∀ r, isRootF u.leaders r → (u.find p).2.leaders r = u.leaders r) ∧
    UFInv (u.find p).2 ∧
    (∀ x ∈ u.keys, (u.find p).2.rootOf x = u.rootOf x) := by
  have base := ufbase_of_inv inv
  obtain ⟨d, hroot, hmin⟩ := exists_minRoot (inv.rooted p hp)
  have hd : d < u.keys.length := minDepth_lt_card base hp hroot hmin
  obtain ⟨H1, H2, H3⟩ := findAux_run hroot hmin (u.keys.length + 1) (by omega)
  have hfind : u.find p =
      ((some (findAux (u.keys.length + 1) u.leaders p (u.leaders p).1
          (u.leaders p).2).1.1,
        (findAux (u.keys.length + 1) u.leaders p (u.leaders p).1
          (u.leaders p).2).1.2),
       ⟨u.keys, (findAux (u.keys.length + 1) u.leaders p (u.leaders p).1
          (u.leaders p).2).2⟩) := by
    rw [UnionFind.find, if_pos hp]
  set g := (findAux (u.keys.length + 1) u.leaders p (u.leaders p).1
    (u.leaders p).2).2 with hg
  have hro : u.rootOf p = (pstep u.leaders)^[d] p :=
    rootD_eq hroot hmin u.keys.length (by omega)
  have hstep : ∀ x, g x = u.leaders x ∨ g x = u.leaders ((u.leaders x).1) := by
    intro x
    by_cases hx : ∀ i < d, x ≠ (pstep u.leaders)^[i] p
    · left
      exact H2 x hx
    · push_neg at hx
      obtain ⟨i, hi, rfl⟩ := hx
      right
      rw [H3 i hi, Function.iterate_succ_apply']
      exact rfl
  have hrootfix : ∀ x, isRootF u.leaders x → g x = u.leaders x := by
    intro x hxroot
    apply H2
    intro i hi heq
    exact hmin i hi (heq ▸ hxroot)
  have hstep' : ∀ x, g x = u.leaders x ∨ g x = u.leaders (pstep u.leaders x) :=
    hstep
  obtain ⟨base2, hpres⟩ := ufbase_of_halving base hstep' hrootfix
  have hkeys : (u.find p).2.keys = u.keys := by rw [hfind]
  have hlead : (u.find p).2.leaders = g := by rw [hfind]
  refine ⟨?_, hkeys, ?_, ?_, ?_, ?_⟩
  · rw [hfind, hro, H1]
  · intro x
    rw [hlead]
    exact hstep x
  · intro r hr
    rw [hlead]
    exact hrootfix r hr
  · refine ⟨?_, ?_, ?_, ?_⟩
    · rw [hkeys]; exact inv.nodup
    · intro x hx
      rw [hkeys] at hx
      rw [hkeys, hlead]
      exact base2.closed x hx
    · intro x hx
      rw [hkeys] at hx
      rw [hlead]
      exact base2.rooted x hx
    · intro r hr hrootr
      rw [hkeys] at hr
      rw [hlead] at hrootr
      have hrf : isRootF u.leaders r :=
        (isRoot_iff_of_halving hstep' hrootfix (inv.rooted r hr)).1 hrootr
      calc ((u.find p).2.leaders r).2
          = (u.leaders r).2 := by rw [hlead, hrootfix r hrf]
        _ = (u.keys.filter (fun x => u.rootOf x = r)).length := inv.sizes r hr hrf
        _ = (u.keys.filter (fun x => (u.find p).2.rootOf x = r)).length := by
            refine congrArg List.length (List.filter_congr ?_).symm
            intro x hx
            have hrox : (u.find p).2.rootOf x = u.rootOf x := by
              show rootD (u.find p).2.leaders (u.find p).2.keys.length x = u.rootOf x
              rw [hkeys, hlead]
              exact hpres x hx
            exact decide_eq_decide.mpr (by rw [hrox])
        _ = ((u.find p).2.keys.filter (fun x => (u.find p).2.rootOf x = r)).length := by
            rw [hkeys]
  · intro x hx
    show rootD (u.find p).2.leaders (u.find p).2.keys.length x = u.rootOf x
    rw [hkeys, hlead]
    exact hpres x hx

/-! ## Specification of `union` -/

theorem merge_reaches {f g : α → α × Nat} {pl ql : α} {s : Nat}
    (hrpl : isRootF f pl) (hrql : isRootF f ql)
    (hg : ∀ z, g z = if z = pl ∨ z = ql then (ql, s) else f z) :
    ∀ n x ρ, (pstep f)^[n] x = ρ → isRootF f ρ →
      reaches g x (if ρ = pl then ql else ρ) := by
  have hgql : g ql = (ql, s) := by rw [hg]; exact if_pos (Or.inr rfl)
  have hgpl : g pl = (ql, s) := by rw [hg]; exact if_pos (Or.inl rfl)
  have hrootgql : isRootF g ql := by
    show (g ql).1 = ql
    rw [hgql]
  intro n
  induction n using Nat.strong_induction_on with
  | _ n ih =>
    intro x ρ hn hρ
    by_cases hx : isRootF f x
    · have hxρ : x = ρ := by rw [← hn, iterate_fixed_root hx]
      subst hxρ
      by_cases hxpl : x = pl
      · subst hxpl
        rw [if_pos rfl]
        refine reaches_step ?_
        have hpg : pstep g x = ql := by
          show (g x).1 = ql
          rw [hgpl]
        rw [hpg]
        exact reaches_self hrootgql
      · rw [if_neg hxpl]
        by_cases hxql : x = ql
        · subst hxql
          exact reaches_self hrootgql
        · refine reaches_self ?_
          show (g x).1 = x
          rw [hg]
          rw [if_neg (by tauto)]
          exact hx
    · have hn1 : n ≠ 0 := by
        rintro rfl
        apply hx
        have hx0 : (pstep f)^[0] x = x := rfl
        rw [hx0] at hn
        rw [hn]
        exact hρ
      obtain ⟨m, rfl⟩ : ∃ m, n = m + 1 := ⟨n - 1, by omega⟩
      have hxpl : x ≠ pl := fun h => hx (h ▸ hrpl)
      have hxql : x ≠ ql := fun h => hx (h ▸ hrql)
      have hgx : g x = f x := by
        rw [hg]
        exact if_neg (by tauto)
      have hrec : (pstep f)^[m] (pstep f x) = ρ := by
        rw [← Function.iterate_succ_apply]
        exact hn
      have hreach := ih m (by omega) (pstep f x) ρ hrec hρ
      refine reaches_step ?_
      have hpg : pstep g x = pstep f x := by
        show (g x).1 = (f x).1
        rw [hgx]
      rw [hpg]
      exact hreach

theorem merge_spec {K : List α} {f g : α → α × Nat} (base : UFBase K f)
    {pl ql : α} (hpl : pl ∈ K) (hql : ql ∈ K)
    (hrpl : isRootF f pl) (hrql : isRootF f ql) (hne : pl ≠ ql) {s : Nat}
    (hg : ∀ z, g z = if z = pl ∨ z = ql then (ql, s) else f z) :
    UFBase K g ∧
    (∀ x ∈ K, rootD g K.length x =
      (if rootD f K.length x = pl then ql else rootD f K.length x)) ∧
    (∀ z, isRootF g z ↔ (isRootF f z ∧ z ≠ pl)) := by
  have hgql : g ql = (ql, s) := by rw [hg]; exact if_pos (Or.inr rfl)
  have hgpl : g pl = (ql, s) := by rw [hg]; exact if_pos (Or.inl rfl)
  have hgother : ∀ z, z ≠ pl → z ≠ ql → g z = f z := by
    intro z h1 h2
    rw [hg]
    exact if_neg (by tauto)
  have hrootiff : ∀ z, isRootF g z ↔ (isRootF f z ∧ z ≠ pl) := by
    intro z
    by_cases h1 : z = pl
    · subst h1
      constructor
      · intro hroot
        have : (g z).1 = z := hroot
        rw [hgpl] at this
        exact absurd this.symm hne
      · rintro ⟨_, h⟩
        exact absurd rfl h
    · by_cases h2 : z = ql
      · subst h2
        constructor
        · intro _
          exact ⟨hrql, h1⟩
        · intro _
          show (g z).1 = z
          rw [hgql]
      · constructor
        · intro hroot
          have : (g z).1 = z := hroot
          rw [hgother z h1 h2] at this
          exact ⟨this, h1⟩
        · rintro ⟨hroot, _⟩
          show (g z).1 = z
          rw [hgother z h1 h2]
          exact hroot
  have hreach : ∀ x ∈ K, reaches g x
      (if rootD f K.length x = pl then ql else rootD f K.length x) := by
    intro x hx
    obtain ⟨n, hn, hρ⟩ := rootD_reaches base hx
    exact merge_reaches hrpl hrql hg n x _ hn hρ
  have hbase : UFBase K g := by
    refine ⟨base.nodup, ?_, ?_⟩
    · intro x hx
      by_cases h1 : x = pl
      · subst h1
        show (g x).1 ∈ K
        rw [hgpl]
        exact hql
      · by_cases h2 : x = ql
        · subst h2
          show (g x).1 ∈ K
          rw [hgql]
          exact hql
        · show (g x).1 ∈ K
          rw [hgother x h1 h2]
          exact base.closed x hx
    · intro x hx
      obtain ⟨n, hn, hρ⟩ := hreach x hx
      exact ⟨n, by rw [hn]; exact hρ⟩
  exact ⟨hbase, fun x hx => (reaches_iff_rootD hbase hx).1 (hreach x hx), hrootiff⟩

theorem union_eq_of_not_left {u : UnionFind α} {p q : α} (hp : p ∉ u.keys) :
    u.union p q = (u.find q).2 := by
  have h1 : u.find p = ((none, 0), u) := find_not_mem hp
  simp only [UnionFind.union, h1]

theorem union_eq_of_not_right {u : UnionFind α} {p q : α}
    (hq : q ∉ (u.find p).2.keys) :
    u.union p q = (u.find p).2 := by
  have h1 : (u.find p).2.find q = ((none, 0), (u.find p).2) := find_not_mem hq
  rcases h2 : (u.find p).1.1 with _ | pl <;>
    simp only [UnionFind.union, h1, h2]

theorem findAux_fst_some {u : UnionFind α} {p : α} (hp : p ∈ u.keys) :
    (u.find p).1.1 = some (findAux (u.keys.length + 1) u.leaders p (u.leaders p).1
      (u.leaders p).2).1.1 := by
  rw [UnionFind.find, if_pos hp]

theorem union_eq_of_some {u : UnionFind α} {p q PL QL : α}
    (hp1 : (u.find p).1.1 = some PL)
    (hq1 : ((u.find p).2.find q).1.1 = some QL) :
    u.union p q =
      (if PL ≠ QL then
        ⟨((u.find p).2.find q).2.keys,
          fun x => if x = PL ∨ x = QL then
            (QL, (u.find p).1.2 + ((u.find p).2.find q).1.2)
          else ((u.find p).2.find q).2.leaders x⟩
      else ((u.find p).2.find q).2) := by
  simp only [UnionFind.union, hp1, hq1]

theorem union_spec {u : UnionFind α} (inv : UFInv u) (p q : α) :
    UFInv (u.union p q) ∧
    (u.union p q).keys = u.keys ∧
    (∀ a ∈ u.keys, ∀ b ∈ u.keys,
      ((u.union p q).rootOf a = (u.union p q).rootOf b ↔
        (u.rootOf a = u.rootOf b ∨
          (p ∈ u.keys ∧ q ∈ u.keys ∧
            ((u.rootOf a = u.rootOf p ∧ u.rootOf b = u.rootOf q) ∨
             (u.rootOf a = u.rootOf q ∧ u.rootOf b = u.rootOf p)))))) := by
  by_cases hp : p ∈ u.keys
  · obtain ⟨hval1, hkeys1, _, hrootfix1, inv1, hpres1⟩ := find_spec inv hp
    by_cases hq : q ∈ u.keys
    · have hq1 : q ∈ (u.find p).2.keys := by rw [hkeys1]; exact hq
      obtain ⟨hval2, hkeys2, _, hrootfix2, inv2, hpres2⟩ := find_spec inv1 hq1
      have hkeys : ((u.find p).2.find q).2.keys = u.keys := by rw [hkeys2, hkeys1]
      have hpres : ∀ a ∈ u.keys, ((u.find p).2.find q).2.rootOf a = u.rootOf a := by
        intro a ha
        rw [hpres2 a (by rw [hkeys1]; exact ha), hpres1 a ha]
      have hPL : (u.find p).1.1 = some (u.rootOf p) := by rw [hval1]
      have hq_pres : (u.find p).2.rootOf q = u.rootOf q := hpres1 q hq
      have hQL : ((u.find p).2.find q).1.1 = some (u.rootOf q) := by
        have h1 : ((u.find p).2.find q).1.1 = some ((u.find p).2.rootOf q) := by
          rw [hval2]
        rw [h1, hq_pres]
      have hbase0 := ufbase_of_inv inv
      have hrootp : isRootF u.leaders (u.rootOf p) := rootD_isRoot hbase0 hp
      have hrootq : isRootF u.leaders (u.rootOf q) := rootD_isRoot hbase0 hq
      have hmem_rp : u.rootOf p ∈ u.keys := rootD_mem hbase0 hp
      have hmem_rq : u.rootOf q ∈ u.keys := rootD_mem hbase0 hq
      have hfixp1 : (u.find p).2.leaders (u.rootOf p) = u.leaders (u.rootOf p) :=
        hrootfix1 _ hrootp
      have hrootp1 : isRootF (u.find p).2.leaders (u.rootOf p) := by
        show ((u.find p).2.leaders (u.rootOf p)).1 = u.rootOf p
        rw [hfixp1]
        exact hrootp
      have hfixp2 : ((u.find p).2.find q).2.leaders (u.rootOf p) =
          u.leaders (u.rootOf p) := by
        rw [hrootfix2 _ hrootp1, hfixp1]
      have hfixq1 : (u.find p).2.leaders (u.rootOf q) = u.leaders (u.rootOf q) :=
        hrootfix1 _ hrootq
      have hrootq1 : isRootF (u.find p).2.leaders (u.rootOf q) := by
        show ((u.find p).2.leaders (u.rootOf q)).1 = u.rootOf q
        rw [hfixq1]
        exact hrootq
      have hfixq2 : ((u.find p).2.find q).2.leaders (u.rootOf q) =
          u.leaders (u.rootOf q) := by
        rw [hrootfix2 _ hrootq1, hfixq1]
      have hrootp2 : isRootF ((u.find p).2.find q).2.leaders (u.rootOf p) := by
        show (((u.find p).2.find q).2.leaders (u.rootOf p)).1 = u.rootOf p
        rw [hfixp2]
        exact hrootp
      have hrootq2 : isRootF ((u.find p).2.find q).2.leaders (u.rootOf q) := by
        show (((u.find p).2.find q).2.leaders (u.rootOf q)).1 = u.rootOf q
        rw [hfixq2]
        exact hrootq
      have hnp : (u.find p).1.2 = (u.leaders (u.rootOf p)).2 := by rw [hval1]
      have hnq : ((u.find p).2.find q).1.2 = (u.leaders (u.rootOf q)).2 := by
        have h1 : ((u.find p).2.find q).1.2 =
            ((u.find p).2.leaders ((u.find p).2.rootOf q)).2 := by
          rw [hval2]
        rw [h1, hq_pres, hfixq1]
      rcases eq_or_ne (u.rootOf p) (u.rootOf q) with heq | hne
      · rw [union_eq_of_some hPL hQL, if_neg (not_ne_iff.mpr heq)]
        refine ⟨inv2, hkeys, ?_⟩
        intro a ha b hb
        rw [hpres a ha, hpres b hb]
        constructor
        · exact Or.inl
        · rintro (h | ⟨_, _, ⟨h1, h2⟩ | ⟨h1, h2⟩⟩)
          · exact h
          · rw [h1, h2, heq]
          · rw [h1, h2, heq]
      · rw [union_eq_of_some hPL hQL, if_pos hne]
        set g2 : α → α × Nat := fun x =>
          if x = u.rootOf p ∨ x = u.rootOf q then
            (u.rootOf q, (u.find p).1.2 + ((u.find p).2.find q).1.2)
          else ((u.find p).2.find q).2.leaders x with hg2
        have base2 : UFBase ((u.find p).2.find q).2.keys
            ((u.find p).2.find q).2.leaders := ufbase_of_inv inv2
        have hmem_rp2 : u.rootOf p ∈ ((u.find p).2.find q).2.keys := by
          rw [hkeys]
          exact hmem_rp
        have hmem_rq2 : u.rootOf q ∈ ((u.find p).2.find q).2.keys := by
          rw [hkeys]
          exact hmem_rq
        obtain ⟨gbase, hgroot, hgriff⟩ :=
          merge_spec base2 hmem_rp2 hmem_rq2 hrootp2 hrootq2 hne
            (show ∀ z, g2 z = _ from fun z => by rw [hg2])
        have hlen2 : ((u.find p).2.find q).2.keys.length = u.keys.length := by
          rw [hkeys]
        have hgroot2 : ∀ x ∈ ((u.find p).2.find q).2.keys,
            rootD g2 ((u.find p).2.find q).2.keys.length x =
              (if ((u.find p).2.find q).2.rootOf x = u.rootOf p then u.rootOf q
               else ((u.find p).2.find q).2.rootOf x) := hgroot
        have hsz_p : (((u.find p).2.find q).2.leaders (u.rootOf p)).2 =
            (((u.find p).2.find q).2.keys.filter
              (fun x => ((u.find p).2.find q).2.rootOf x = u.rootOf p)).length :=
          inv2.sizes _ hmem_rp2 hrootp2
        have hsz_q : (((u.find p).2.find q).2.leaders (u.rootOf q)).2 =
            (((u.find p).2.find q).2.keys.filter
              (fun x => ((u.find p).2.find q).2.rootOf x = u.rootOf q)).length :=
          inv2.sizes _ hmem_rq2 hrootq2
        refine ⟨?_, hkeys, ?_⟩
        · refine ⟨?_, ?_, ?_, ?_⟩
          · show ((u.find p).2.find q).2.keys.Nodup
            exact inv2.nodup
          · intro x hx
            exact gbase.closed x hx
          · intro x hx
            exact gbase.rooted x hx
          · intro r hr hrootr
            obtain ⟨hroot2r, hrnotp⟩ := (hgriff r).1 hrootr
            show (g2 r).2 = (((u.find p).2.find q).2.keys.filter
              (fun x => rootD g2 ((u.find p).2.find q).2.keys.length x = r)).length
            by_cases hrq : r = u.rootOf q
            · rw [hrq]
              have hgr : g2 (u.rootOf q) = (u.rootOf q,
                  (u.find p).1.2 + ((u.find p).2.find q).1.2) := by
                rw [hg2]
                exact if_pos (Or.inr rfl)
              rw [hgr]
              have hcongr : ((u.find p).2.find q).2.keys.filter
                  (fun x => decide (rootD g2 ((u.find p).2.find q).2.keys.length x =
                    u.rootOf q)) =
                  ((u.find p).2.find q).2.keys.filter
                    (fun x => decide (((u.find p).2.find q).2.rootOf x = u.rootOf p) ||
                      decide (((u.find p).2.find q).2.rootOf x = u.rootOf q)) := by
                apply List.filter_congr
                intro x hx
                rw [hgroot2 x hx]
                by_cases hx1 : ((u.find p).2.find q).2.rootOf x = u.rootOf p
                · simp [hx1]
                · simp [hx1]
              rw [hcongr, filter_or_length]
              · have e1 : (((u.find p).2.find q).2.keys.filter
                    (fun x => decide (((u.find p).2.find q).2.rootOf x = u.rootOf p))).length =
                    (u.leaders (u.rootOf p)).2 := by
                  rw [← hfixp2, hsz_p]
                have e2 : (((u.find p).2.find q).2.keys.filter
                    (fun x => decide (((u.find p).2.find q).2.rootOf x = u.rootOf q))).length =
                    (u.leaders (u.rootOf q)).2 := by
                  rw [← hfixq2, hsz_q]
                rw [e1, e2, hnp, hnq]
              · intro x hx
                rintro ⟨h1, h2⟩
                rw [decide_eq_true_eq] at h1 h2
                exact hne (h1.symm.trans h2)
            · have hgr : g2 r = ((u.find p).2.find q).2.leaders r := by
                rw [hg2]
                exact if_neg (by tauto)
              rw [hgr, inv2.sizes r hr hroot2r]
              apply congrArg
              apply List.filter_congr
              intro x hx
              rw [hgroot2 x hx]
              by_cases hx1 : ((u.find p).2.find q).2.rootOf x = u.rootOf p
              · simp only [hx1, if_pos rfl]
                have h1 : ¬ (u.rootOf q = r) := fun h => hrq h.symm
                have h3 : ¬ (u.rootOf p = r) := fun h => hrnotp h.symm
                simp [h1, h3, hx1]
              · simp [hx1]
        · intro a ha b hb
          have ha2 : a ∈ ((u.find p).2.find q).2.keys := by rw [hkeys]; exact ha
          have hb2 : b ∈ ((u.find p).2.find q).2.keys := by rw [hkeys]; exact hb
          have hA : rootD g2 ((u.find p).2.find q).2.keys.length a =
              (if u.rootOf a = u.rootOf p then u.rootOf q else u.rootOf a) := by
            rw [hgroot2 a ha2, hpres a ha]
          have hB : rootD g2 ((u.find p).2.find q).2.keys.length b =
              (if u.rootOf b = u.rootOf p then u.rootOf q else u.rootOf b) := by
            rw [hgroot2 b hb2, hpres b hb]
          show rootD g2 ((u.find p).2.find q).2.keys.length a =
              rootD g2 ((u.find p).2.find q).2.keys.length b ↔ _
          rw [hA, hB]
          constructor
          · intro h
            by_cases h1 : u.rootOf a = u.rootOf p <;>
              by_cases h2 : u.rootOf b = u.rootOf p
            · exact Or.inl (h1.trans h2.symm)
            · rw [if_pos h1, if_neg h2] at h
              exact Or.inr ⟨hp, hq, Or.inl ⟨h1, h.symm⟩⟩
            · rw [if_neg h1, if_pos h2] at h
              exact Or.inr ⟨hp, hq, Or.inr ⟨h, h2⟩⟩
            · rw [if_neg h1, if_neg h2] at h
              exact Or.inl h
          · rintro (h | ⟨_, _, ⟨h1, h2⟩ | ⟨h1, h2⟩⟩)
            · rw [h]
            · rw [h1, h2, if_pos rfl, if_neg (fun h => hne h.symm)]
            · rw [h1, h2, if_pos rfl, if_neg (fun h => hne h.symm)]
    · have hq' : q ∉ (u.find p).2.keys := by rw [hkeys1]; exact hq
      rw [union_eq_of_not_right hq']
      refine ⟨inv1, hkeys1, ?_⟩
      intro a ha b hb
      rw [hpres1 a ha, hpres1 b hb]
      constructor
      · exact Or.inl
      · rintro (h | ⟨_, hqk, _⟩)
        · exact h
        · exact absurd hqk hq
  · rw [union_eq_of_not_left hp]
    by_cases hq : q ∈ u.keys
    · obtain ⟨_, hkeys1, _, _, inv1, hpres1⟩ := find_spec inv hq
      refine ⟨inv1, hkeys1, ?_⟩
      intro a ha b hb
      rw [hpres1 a ha, hpres1 b hb]
      constructor
      · exact Or.inl
      · rintro (h | ⟨hpk, _, _⟩)
        · exact h
        · exact absurd hpk hp
    · rw [find_not_mem hq]
      refine ⟨inv, rfl, ?_⟩
      intro a ha b hb
      constructor
      · exact Or.inl
      · rintro (h | ⟨hpk, _, _⟩)
        · exact h
        · exact absurd hpk hp

/-! ## The initial state and sequences of operations -/

theorem init_rootOf {K : List α} (x : α) : (UnionFind.init K).rootOf x = x := by
  show rootD (fun m => (m, 1)) K.length x = x
  cases K.length with
  | zero => rfl
  | succ n =>
    rw [rootD]
    exact if_pos rfl

theorem nodup_filter_eq_length {K : List α} (hK : K.Nodup) {r : α} (hr : r ∈ K) :
    (K.filter (fun x => decide (x = r))).length = 1 := by
  induction K with
  | nil => cases hr
  | cons a K ih =>
    rw [List.nodup_cons] at hK
    rcases List.mem_cons.1 hr with heq | hr'
    · rw [List.filter_cons, if_pos (by simp [heq])]
      have hnone : K.filter (fun x => decide (x = r)) = [] := by
        rw [List.filter_eq_nil_iff]
        intro x hx
        simp only [decide_eq_true_eq]
        intro hcon
        apply hK.1
        rw [← heq, ← hcon]
        exact hx
      simp [hnone]
    · have har : ¬ decide (a = r) = true := by
        simp only [decide_eq_true_eq]
        intro h
        exact hK.1 (h ▸ hr')
      rw [List.filter_cons, if_neg har]
      exact ih hK.2 hr'

theorem init_inv {K : List α} (hK : K.Nodup) : UFInv (UnionFind.init K) := by
  refine ⟨hK, ?_, ?_, ?_⟩
  · intro x hx
    exact hx
  · intro x hx
    exact ⟨0, rfl⟩
  · intro r hr _
    show 1 = ((UnionFind.init K).keys.filter
      (fun x => (UnionFind.init K).rootOf x = r)).length
    have hfe : (UnionFind.init K).keys.filter
        (fun x => decide ((UnionFind.init K).rootOf x = r)) =
        K.filter (fun x => decide (x = r)) := by
      apply List.filter_congr
      intro x _
      rw [init_rootOf]
    rw [hfe, nodup_filter_eq_length hK hr]

/-! ## The closure of union-ed pairs -/

theorem linked_mono {K : List α} {ps : List (α × α)} {e : α × α} {a b : α}
    (h : Linked K ps a b) : Linked K (ps ++ [e]) a b := by
  induction h with
  | base hmem ha hb => exact Linked.base (List.mem_append_left _ hmem) ha hb
  | refl ha => exact Linked.refl ha
  | symm _ ih => exact Linked.symm ih
  | trans _ _ ih1 ih2 => exact Linked.trans ih1 ih2

theorem linked_nil {K : List α} {a b : α} (h : Linked K [] a b) : a = b := by
  induction h with
  | base hmem _ _ => exact absurd hmem (List.not_mem_nil _)
  | refl _ => rfl
  | symm _ ih => exact ih.symm
  | trans _ _ ih1 ih2 => exact ih1.trans ih2

theorem linked_snoc {K : List α} {ps : List (α × α)} {p q : α}
    (hp : p ∈ K) (hq : q ∈ K) (a b : α) :
    Linked K (ps ++ [(p, q)]) a b ↔
      (Linked K ps a b ∨ (Linked K ps a p ∧ Linked K ps q b) ∨
        (Linked K ps a q ∧ Linked K ps p b)) := by
  constructor
  · intro h
    induction h with
    | base hmem ha hb =>
      rcases List.mem_append.1 hmem with h1 | h1
      · exact Or.inl (Linked.base h1 ha hb)
      · rw [List.mem_singleton, Prod.mk.injEq] at h1
        obtain ⟨rfl, rfl⟩ := h1
        exact Or.inr (Or.inl ⟨Linked.refl hp, Linked.refl hq⟩)
    | refl ha => exact Or.inl (Linked.refl ha)
    | symm _ ih =>
      rcases ih with h1 | ⟨h1, h2⟩ | ⟨h1, h2⟩
      · exact Or.inl h1.symm
      · exact Or.inr (Or.inr ⟨h2.symm, h1.symm⟩)
      · exact Or.inr (Or.inl ⟨h2.symm, h1.symm⟩)
    | trans _ _ ih1 ih2 =>
      rcases ih1 with h1 | ⟨h1, h2⟩ | ⟨h1, h2⟩ <;>
        rcases ih2 with h3 | ⟨h3, h4⟩ | ⟨h3, h4⟩
      · exact Or.inl (h1.trans h3)
      · exact Or.inr (Or.inl ⟨h1.trans h3, h4⟩)
      · exact Or.inr (Or.inr ⟨h1.trans h3, h4⟩)
      · exact Or.inr (Or.inl ⟨h1, h2.trans h3⟩)
      · exact Or.inr (Or.inl ⟨h1, h4⟩)
      · exact Or.inl (h1.trans h4)
      · exact Or.inr (Or.inr ⟨h1, h2.trans h3⟩)
      · exact Or.inl (h1.trans h4)
      · exact Or.inr (Or.inr ⟨h1, h4⟩)
  · rintro (h | ⟨h1, h2⟩ | ⟨h1, h2⟩)
    · exact linked_mono h
    · exact ((linked_mono h1).trans
        (Linked.base (List.mem_append_right _ (List.mem_singleton_self _)) hp hq)).trans
        (linked_mono h2)
    · exact ((linked_mono h1).trans
        (Linked.symm (Linked.base (List.mem_append_right _ (List.mem_singleton_self _)) hp hq))).trans
        (linked_mono h2)

theorem linked_snoc_irrel {K : List α} {ps : List (α × α)} {p q : α}
    (hnk : ¬(p ∈ K ∧ q ∈ K)) {a b : α} :
    Linked K (ps ++ [(p, q)]) a b ↔ Linked K ps a b := by
  constructor
  · intro h
    induction h with
    | base hmem ha hb =>
      rcases List.mem_append.1 hmem with h1 | h1
      · exact Linked.base h1 ha hb
      · rw [List.mem_singleton, Prod.mk.injEq] at h1
        obtain ⟨rfl, rfl⟩ := h1
        exact absurd ⟨ha, hb⟩ hnk
    | refl ha => exact Linked.refl ha
    | symm _ ih => exact ih.symm
    | trans _ _ ih1 ih2 => exact ih1.trans ih2
  · exact linked_mono

theorem runUnions_append (u : UnionFind α) (ps : List (α × α)) (e : α × α) :
    runUnions u (ps ++ [e]) = (runUnions u ps).union e.1 e.2 := by
  induction ps generalizing u with
  | nil => rfl
  | cons pr rest ih =>
    show runUnions (u.union pr.1 pr.2) (rest ++ [e]) =
      (runUnions (u.union pr.1 pr.2) rest).union e.1 e.2
    exact ih _

theorem runUnions_corr {K : List α} (hK : K.Nodup) (ps : List (α × α)) :
    UFInv (runUnions (UnionFind.init K) ps) ∧
    (runUnions (UnionFind.init K) ps).keys = K ∧
    (∀ a ∈ K, ∀ b ∈ K,
      ((runUnions (UnionFind.init K) ps).rootOf a =
        (runUnions (UnionFind.init K) ps).rootOf b ↔ Linked K ps a b)) := by
  induction ps using List.reverseRecOn with
  | nil =>
    refine ⟨init_inv hK, rfl, ?_⟩
    intro a ha b hb
    show (UnionFind.init K).rootOf a = (UnionFind.init K).rootOf b ↔ Linked K [] a b
    rw [init_rootOf, init_rootOf]
    constructor
    · intro h
      rw [h]
      exact Linked.refl hb
    · exact linked_nil
  | append_singleton ps e ih =>
    obtain ⟨pe, qe⟩ := e
    obtain ⟨inv0, hkeys0, hcorr0⟩ := ih
    rw [runUnions_append]
    obtain ⟨inv1, hkeys1, hiff1⟩ := union_spec inv0 pe qe
    refine ⟨inv1, by rw [hkeys1, hkeys0], ?_⟩
    intro a ha b hb
    have ha0 : a ∈ (runUnions (UnionFind.init K) ps).keys := by rw [hkeys0]; exact ha
    have hb0 : b ∈ (runUnions (UnionFind.init K) ps).keys := by rw [hkeys0]; exact hb
    rw [hiff1 a ha0 b hb0, hkeys0]
    by_cases hpq : pe ∈ K ∧ qe ∈ K
    · rw [linked_snoc hpq.1 hpq.2]
      constructor
      · rintro (h | ⟨_, _, ⟨h1, h2⟩ | ⟨h1, h2⟩⟩)
        · exact Or.inl ((hcorr0 a ha b hb).1 h)
        · exact Or.inr (Or.inl ⟨(hcorr0 a ha pe hpq.1).1 h1,
            ((hcorr0 b hb qe hpq.2).1 h2).symm⟩)
        · exact Or.inr (Or.inr ⟨(hcorr0 a ha qe hpq.2).1 h1,
            ((hcorr0 b hb pe hpq.1).1 h2).symm⟩)
      · rintro (h | ⟨h1, h2⟩ | ⟨h1, h2⟩)
        · exact Or.inl ((hcorr0 a ha b hb).2 h)
        · exact Or.inr ⟨hpq.1, hpq.2, Or.inl ⟨(hcorr0 a ha pe hpq.1).2 h1,
            (hcorr0 b hb qe hpq.2).2 h2.symm⟩⟩
        · exact Or.inr ⟨hpq.1, hpq.2, Or.inr ⟨(hcorr0 a ha qe hpq.2).2 h1,
            (hcorr0 b hb pe hpq.1).2 h2.symm⟩⟩
    · rw [linked_snoc_irrel hpq]
      constructor
      · rintro (h | ⟨h1, h2, _⟩)
        · exact (hcorr0 a ha b hb).1 h
        · exact absurd ⟨h1, h2⟩ hpq
      · intro h
        exact Or.inl ((hcorr0 a ha b hb).2 h)

/-! ## `connected` -/

theorem connected_iff {u : UnionFind α} (inv : UFInv u) {a b : α}
    (ha : a ∈ u.keys) (hb : b ∈ u.keys) :
    u.connected a b = true ↔ u.rootOf a = u.rootOf b := by
  obtain ⟨hval1, hkeys1, _, hrootfix1, inv1, hpres1⟩ := find_spec inv ha
  have hb1 : b ∈ (u.find a).2.keys := by rw [hkeys1]; exact hb
  obtain ⟨hval2, _, _, _, _, _⟩ := find_spec inv1 hb1
  show decide ((u.find a).1 = ((u.find a).2.find b).1) = true ↔ _
  rw [decide_eq_true_eq, hval1, hval2, hpres1 b hb]
  have hrootb : isRootF u.leaders (u.rootOf b) := rootD_isRoot (ufbase_of_inv inv) hb
  rw [hrootfix1 _ hrootb]
  constructor
  · intro h
    have h1 := congrArg Prod.fst h
    simpa using h1
  · intro h
    rw [h]

theorem runOps_inv {K : List α} (hK : K.Nodup) (ops : List (Op α)) :
    UFInv (runOps (UnionFind.init K) ops) ∧
    (runOps (UnionFind.init K) ops).keys = K := by
  suffices h : ∀ u : UnionFind α, UFInv u → u.keys = K →
      UFInv (runOps u ops) ∧ (runOps u ops).keys = K by
    exact h _ (init_inv hK) rfl
  induction ops with
  | nil =>
    intro u hu hk
    exact ⟨hu, hk⟩
  | cons op rest ih =>
    intro u hu hk
    cases op with
    | union p q =>
      obtain ⟨inv1, hkeys1, _⟩ := union_spec hu p q
      exact ih _ inv1 (by rw [hkeys1, hk])
    | find p =>
      by_cases hp : p ∈ u.keys
      · obtain ⟨_, hkeys1, _, _, inv1, _⟩ := find_spec hu hp
        exact ih _ inv1 (by rw [hkeys1, hk])
      · have h2 : (u.find p).2 = u := by rw [find_not_mem hp]
        show UFInv (runOps (u.find p).2 rest) ∧ (runOps (u.find p).2 rest).keys = K
        rw [h2]
        exact ih _ hu hk

/-! ## Board basics -/

theorem row_len {b : Hitori} (hwf : b.wf) {v : Nat} (hv : v < b.height) :
    (b.lines.getD v []).length = b.width := by
  rw [List.getD_eq_getElem _ _ hv]
  exact hwf _ (List.getElem_mem hv)

theorem getc_nat (b : Hitori) (u v : Nat) :
    b.getc u v = (b.lines.getD v []).getD u '?' := by
  simp [Hitori.getc, Int.toNat_natCast]

theorem is_blank_nat {b : Hitori} {u v : Nat} (hu : u < b.width) (hv : v < b.height) :
    b.is_blank u v = (b.getc u v == BLANK) := by
  simp only [Hitori.is_blank]
  rw [decide_eq_true (by positivity : (0:Int) ≤ (u:Int)),
    decide_eq_true (by exact_mod_cast hu : ((u:Int) < (b.width : Int))),
    decide_eq_true (by positivity : (0:Int) ≤ (v:Int)),
    decide_eq_true (by exact_mod_cast hv : ((v:Int) < (b.height : Int)))]
  simp

theorem is_blank_inDims {b : Hitori} {x y : Int} (h : b.is_blank x y = true) :
    0 ≤ x ∧ x < (b.width : Int) ∧ 0 ≤ y ∧ y < (b.height : Int) ∧ b.getc x y = BLANK := by
  simp only [Hitori.is_blank, Bool.and_eq_true, decide_eq_true_eq, beq_iff_eq] at h
  exact ⟨h.1.1.1.1, h.1.1.1.2, h.1.1.2, h.1.2, h.2⟩

theorem is_blank_false_of_not_inDims {b : Hitori} {x y : Int}
    (h : ¬(0 ≤ x ∧ x < (b.width : Int) ∧ 0 ≤ y ∧ y < (b.height : Int))) :
    b.is_blank x y = false := by
  rcases Bool.eq_false_or_eq_true (b.is_blank x y) with hb | hb
  · obtain ⟨h1, h2, h3, h4, _⟩ := is_blank_inDims hb
    exact absurd ⟨h1, h2, h3, h4⟩ h
  · exact hb

theorem blank_eq_error {b : Hitori} {x y : Int}
    (h : b.is_blank (x - 1) y = true ∨ b.is_blank (x + 1) y = true ∨
      b.is_blank x (y - 1) = true ∨ b.is_blank x (y + 1) = true) :
    b.blank x y = Except.error BlankError.adjacent := by
  rw [Hitori.blank, if_pos]
  simp only [Bool.or_eq_true]
  tauto

theorem blank_ok_elim {b b2 : Hitori} {x y : Int} (h : b.blank x y = Except.ok b2) :
    b.is_blank (x - 1) y = false ∧ b.is_blank (x + 1) y = false ∧
    b.is_blank x (y - 1) = false ∧ b.is_blank x (y + 1) = false ∧
    b2.lines = b.lines.set y.toNat
      ((b.lines.getD y.toNat []).take x.toNat ++ [BLANK] ++
        (b.lines.getD y.toNat []).drop (x.toNat + 1)) := by
  by_cases hcond : (b.is_blank (x - 1) y || b.is_blank (x + 1) y ||
      b.is_blank x (y - 1) || b.is_blank x (y + 1)) = true
  · rw [Hitori.blank, if_pos hcond] at h
    exact absurd h (by simp)
  · rw [Hitori.blank, if_neg hcond] at h
    rw [Except.ok.injEq] at h
    simp only [Bool.or_eq_true, not_or, Bool.not_eq_true] at hcond
    obtain ⟨⟨⟨h1, h2⟩, h3⟩, h4⟩ := hcond
    refine ⟨h1, h2, h3, h4, ?_⟩
    rw [← h]

theorem blank_eq_ok {b : Hitori} {x y : Int}
    (h1 : b.is_blank (x - 1) y = false) (h2 : b.is_blank (x + 1) y = false)
    (h3 : b.is_blank x (y - 1) = false) (h4 : b.is_blank x (y + 1) = false) :
    b.blank x y = Except.ok ⟨b.lines.set y.toNat
      ((b.lines.getD y.toNat []).take x.toNat ++ [BLANK] ++
        (b.lines.getD y.toNat []).drop (x.toNat + 1))⟩ := by
  rw [Hitori.blank, if_neg]
  simp [h1, h2, h3, h4]

theorem blank_lines_eq_set {b : Hitori} (hwf : b.wf) {u v : Nat}
    (hu : u < b.width) (hv : v < b.height) :
    (b.lines.getD v []).take u ++ [BLANK] ++ (b.lines.getD v []).drop (u + 1) =
      (b.lines.getD v []).set u BLANK := by
  rw [List.set_eq_take_append_cons_drop, if_pos (by rw [row_len hwf hv]; exact hu)]
  simp

theorem headD_set {β : Type} {l : List β} {i : Nat} {a d : β} (hi : i < l.length) :
    (l.set i a).headD d = if i = 0 then a else l.headD d := by
  cases l with
  | nil => simp at hi
  | cons x xs => cases i <;> simp [List.set]

theorem blank_ok_nat {b b2 : Hitori} (hwf : b.wf) {u v : Nat}
    (hu : u < b.width) (hv : v < b.height)
    (h : b.blank (u : Int) (v : Int) = Except.ok b2) :
    b2.lines = b.lines.set v ((b.lines.getD v []).set u BLANK) ∧
    b2.width = b.width ∧ b2.height = b.height ∧ b2.wf := by
  obtain ⟨_, _, _, _, hlines⟩ := blank_ok_elim h
  rw [Int.toNat_natCast, Int.toNat_natCast] at hlines
  rw [blank_lines_eq_set hwf hu hv] at hlines
  have hh : b2.height = b.height := by
    show b2.lines.length = b.lines.length
    rw [hlines, List.length_set]
  have hvlen : v < b.lines.length := hv
  have hw : b2.width = b.width := by
    show (b2.lines.headD []).length = b.width
    rw [hlines, headD_set hvlen]
    by_cases h0 : v = 0
    · rw [if_pos h0, List.length_set]
      exact row_len hwf hv
    · rw [if_neg h0]
      rfl
  refine ⟨hlines, hw, hh, ?_⟩
  intro l hl
  rw [hlines] at hl
  rcases List.mem_or_eq_of_mem_set hl with hl' | hl'
  · rw [hw]
    exact hwf l hl'
  · rw [hl', List.length_set, hw]
    exact row_len hwf hv

theorem getc_blank {b b2 : Hitori} (hwf : b.wf) {u v : Nat}
    (hu : u < b.width) (hv : v < b.height)
    (h : b.blank (u : Int) (v : Int) = Except.ok b2) :
    ∀ p q : Nat, p < b.width → q < b.height →
      b2.getc p q = if p = u ∧ q = v then BLANK else b.getc p q := by
  obtain ⟨hlines, hw, hh, hwf2⟩ := blank_ok_nat hwf hu hv h
  intro p q hp hq
  rw [getc_nat, getc_nat, hlines]
  have hq' : q < (b.lines.set v ((b.lines.getD v []).set u BLANK)).length := by
    rw [List.length_set]
    exact hq
  rw [List.getD_eq_getElem _ _ hq', List.getElem_set]
  by_cases hqv : v = q
  · subst hqv
    have hplen : p < ((b.lines.getD v []).set u BLANK).length := by
      rw [List.length_set, row_len hwf hv]
      exact hp
    rw [if_pos rfl, List.getD_eq_getElem _ _ hplen, List.getElem_set]
    by_cases hpu : u = p
    · rw [if_pos hpu, if_pos ⟨hpu.symm, rfl⟩]
    · rw [if_neg hpu, if_neg (by tauto)]
      rw [List.getD_eq_getElem (b.lines.getD v []) '?'
        (show p < (b.lines.getD v []).length by rw [row_len hwf hv]; exact hp)]
  · rw [if_neg hqv, if_neg (by tauto)]
    rw [List.getD_eq_getElem b.lines [] (show q < b.lines.length from hq)]

theorem is_blank_blank {b b2 : Hitori} (hwf : b.wf) {u v : Nat}
    (hu : u < b.width) (hv : v < b.height)
    (h : b.blank (u : Int) (v : Int) = Except.ok b2) :
    ∀ x y : Int, b2.is_blank x y = true ↔
      ((x, y) = ((u : Int), (v : Int)) ∨ b.is_blank x y = true) := by
  obtain ⟨hlines, hw, hh, hwf2⟩ := blank_ok_nat hwf hu hv h
  intro x y
  by_cases hdim : 0 ≤ x ∧ x < (b.width : Int) ∧ 0 ≤ y ∧ y < (b.height : Int)
  · obtain ⟨hx0, hxw, hy0, hyh⟩ := hdim
    obtain ⟨p, rfl⟩ : ∃ p : Nat, x = (p : Int) := ⟨x.toNat, (Int.toNat_of_nonneg hx0).symm⟩
    obtain ⟨q, rfl⟩ : ∃ q : Nat, y = (q : Int) := ⟨y.toNat, (Int.toNat_of_nonneg hy0).symm⟩
    have hp : p < b.width := by exact_mod_cast hxw
    have hq : q < b.height := by exact_mod_cast hyh
    rw [is_blank_nat (hw ▸ hp) (hh ▸ hq), is_blank_nat hp hq,
      getc_blank hwf hu hv h p q hp hq]
    by_cases hpq : p = u ∧ q = v
    · rw [if_pos hpq]
      simp [hpq.1, hpq.2]
    · rw [if_neg hpq]
      have : ¬ (((p : Int), (q : Int)) = ((u : Int), (v : Int))) := by
        rw [Prod.mk.injEq]
        intro hcon
        apply hpq
        constructor
        · exact_mod_cast hcon.1
        · exact_mod_cast hcon.2
      simp [this]
  · have hf2 : b2.is_blank x y = false := by
      apply is_blank_false_of_not_inDims
      rw [hw, hh]
      exact hdim
    have hf1 : b.is_blank x y = false := is_blank_false_of_not_inDims hdim
    rw [hf2, hf1]
    constructor
    · intro hcon
      cases hcon
    · rintro (hcon | hcon)
      · rw [Prod.mk.injEq] at hcon
        exact absurd ⟨by rw [hcon.1]; positivity,
          by rw [hcon.1]; exact_mod_cast hu,
          by rw [hcon.2]; positivity,
          by rw [hcon.2]; exact_mod_cast hv⟩ hdim
      · cases hcon

/-! ## Facts about blanking steps and chains -/

theorem blankStep_facts {a a2 : Hitori} (hwf : a.wf) (h : blankStep a a2) :
    a2.wf ∧ a2.width = a.width ∧ a2.height = a.height ∧
    (∀ x y : Int, a.is_blank x y = true → a2.is_blank x y = true) ∧
    (∀ p q : Nat, p < a.width → q < a.height → a2.is_blank p q = false →
      a2.getc p q = a.getc p q ∧ a.is_blank p q = false) := by
  obtain ⟨u, v, hu, hv, hok⟩ := h
  obtain ⟨hlines, hw, hh, hwf2⟩ := blank_ok_nat hwf hu hv hok
  refine ⟨hwf2, hw, hh, ?_, ?_⟩
  · intro x y hb
    rw [is_blank_blank hwf hu hv hok]
    exact Or.inr hb
  · intro p q hp hq hnb
    have hg := getc_blank hwf hu hv hok p q hp hq
    by_cases hpq : p = u ∧ q = v
    · exfalso
      have hbt : a2.is_blank (p : Int) (q : Int) = true := by
        rw [is_blank_blank hwf hu hv hok]
        exact Or.inl (by rw [hpq.1, hpq.2])
      rw [hbt] at hnb
      cases hnb
    · rw [if_neg hpq] at hg
      refine ⟨hg, ?_⟩
      rw [is_blank_nat (by rw [hw]; exact hp) (by rw [hh]; exact hq), hg] at hnb
      rw [is_blank_nat hp hq]
      exact hnb

theorem blanks_facts {a r : Hitori} (hwf : a.wf) (h : Blanks a r) :
    r.wf ∧ r.width = a.width ∧ r.height = a.height ∧
    (∀ x y : Int, a.is_blank x y = true → r.is_blank x y = true) ∧
    (∀ p q : Nat, p < a.width → q < a.height → r.is_blank p q = false →
      r.getc p q = a.getc p q ∧ a.is_blank p q = false) := by
  induction h with
  | refl => exact ⟨hwf, rfl, rfl, fun _ _ hb => hb, fun p q _ _ hnb => ⟨rfl, hnb⟩⟩
  | tail hab hstep ih =>
    obtain ⟨hwfb, hwb, hhb, hmono_b, hpres_b⟩ := ih
    obtain ⟨hwfr, hwr, hhr, hmono_r, hpres_r⟩ := blankStep_facts hwfb hstep
    refine ⟨hwfr, hwr.trans hwb, hhr.trans hhb,
      fun x y hb => hmono_r x y (hmono_b x y hb), ?_⟩
    intro p q hp hq hnb
    obtain ⟨hgr, hnbB⟩ := hpres_r p q (by rw [hwb]; exact hp) (by rw [hhb]; exact hq) hnb
    obtain ⟨hgb, hnbA⟩ := hpres_b p q hp hq hnbB
    exact ⟨hgr.trans hgb, hnbA⟩

theorem adjOK_step {a a2 : Hitori} (hwf : a.wf) (hadj : adjOK a) (h : blankStep a a2) :
    adjOK a2 := by
  obtain ⟨u, v, hu, hv, hok⟩ := h
  obtain ⟨hnb1, hnb2, hnb3, hnb4, _⟩ := blank_ok_elim hok
  intro x y
  constructor
  · rintro ⟨hb1, hb2⟩
    rw [is_blank_blank hwf hu hv hok] at hb1 hb2
    rcases hb1 with he1 | ho1 <;> rcases hb2 with he2 | ho2
    · rw [Prod.mk.injEq] at he1 he2
      omega
    · rw [Prod.mk.injEq] at he1
      obtain ⟨rfl, rfl⟩ := he1
      exact absurd ho2 (by simp [hnb2])
    · rw [Prod.mk.injEq] at he2
      have hx : x = (u : Int) - 1 := by omega
      have hy : y = (v : Int) := he2.2
      rw [hx, hy] at ho1
      exact absurd ho1 (by simp [hnb1])
    · exact (hadj x y).1 ⟨ho1, ho2⟩
  · rintro ⟨hb1, hb2⟩
    rw [is_blank_blank hwf hu hv hok] at hb1 hb2
    rcases hb1 with he1 | ho1 <;> rcases hb2 with he2 | ho2
    · rw [Prod.mk.injEq] at he1 he2
      omega
    · rw [Prod.mk.injEq] at he1
      obtain ⟨rfl, rfl⟩ := he1
      exact absurd ho2 (by simp [hnb4])
    · rw [Prod.mk.injEq] at he2
      have hx : x = (u : Int) := he2.1
      have hy : y = (v : Int) - 1 := by omega
      rw [hx, hy] at ho1
      exact absurd ho1 (by simp [hnb3])
    · exact (hadj x y).2 ⟨ho1, ho2⟩

theorem adjOK_of_noBlank {b : Hitori}
    (hnb : ∀ l ∈ b.lines, ∀ ch ∈ l, ch ≠ BLANK) : adjOK b := by
  have hf : ∀ x y : Int, b.is_blank x y = false := by
    intro x y
    rcases Bool.eq_false_or_eq_true (b.is_blank x y) with h | h
    · obtain ⟨hx0, hxw, hy0, hyh, hg⟩ := is_blank_inDims h
      exfalso
      obtain ⟨p, rfl⟩ : ∃ p : Nat, x = (p : Int) := ⟨x.toNat, (Int.toNat_of_nonneg hx0).symm⟩
      obtain ⟨q, rfl⟩ : ∃ q : Nat, y = (q : Int) := ⟨y.toNat, (Int.toNat_of_nonneg hy0).symm⟩
      have hq : q < b.height := by exact_mod_cast hyh
      rw [getc_nat] at hg
      rw [List.getD_eq_getElem b.lines [] (show q < b.lines.length from hq)] at hg
      by_cases hlt : p < (b.lines[q]).length
      · rw [List.getD_eq_getElem _ _ hlt] at hg
        exact hnb _ (List.getElem_mem hq) _ (List.getElem_mem hlt) hg
      · rw [List.getD_eq_default _ _ (by omega)] at hg
        exact absurd hg (by decide)
    · exact h
  intro x y
  constructor
  · rintro ⟨hb1, _⟩
    rw [hf x y] at hb1
    cases hb1
  · rintro ⟨hb1, _⟩
    rw [hf x y] at hb1
    cases hb1

theorem adjOK_blanks {a r : Hitori} (hwf : a.wf) (hadj : adjOK a) (h : Blanks a r) :
    adjOK r := by
  induction h with
  | refl => exact hadj
  | tail hab hstep ih =>
    obtain ⟨hwfb, _, _, _, _⟩ := blanks_facts hwf hab
    exact adjOK_step hwfb ih hstep

/-! ## Duplicate grouping in `blank_some` -/

theorem lookupGroup_nil (w : Char) : lookupGroup [] w = [] := rfl

theorem lookupGroup_cons (g : Char × List (Int × Int))
    (rest : List (Char × List (Int × Int))) (w : Char) :
    lookupGroup (g :: rest) w = if g.1 = w then g.2 else lookupGroup rest w := rfl

theorem addGroup_nil (v : Char) (c : Int × Int) : addGroup [] v c = [(v, [c])] := rfl

theorem addGroup_cons (g : Char × List (Int × Int))
    (rest : List (Char × List (Int × Int))) (v : Char) (c : Int × Int) :
    addGroup (g :: rest) v c =
      if g.1 = v then (g.1, g.2 ++ [c]) :: rest else g :: addGroup rest v c := rfl

theorem lookup_addGroup (gs : List (Char × List (Int × Int))) (v : Char)
    (c : Int × Int) (w : Char) :
    lookupGroup (addGroup gs v c) w =
      if w = v then lookupGroup gs v ++ [c] else lookupGroup gs w := by
  induction gs with
  | nil =>
    by_cases hw : w = v
    · subst hw
      simp [addGroup_nil, lookupGroup_cons, lookupGroup_nil]
    · simp only [addGroup_nil, lookupGroup_cons, lookupGroup_nil]
      rw [if_neg (fun h => hw h.symm), if_neg hw]
  | cons g rest ih =>
    rw [addGroup_cons]
    by_cases hg : g.1 = v
    · rw [if_pos hg, lookupGroup_cons]
      by_cases hw : g.1 = w
      · rw [if_pos hw, if_pos (hw.symm.trans hg), lookupGroup_cons, if_pos hg]
      · rw [if_neg hw, if_neg (fun hcon => hw (hg.trans hcon.symm)),
          lookupGroup_cons, if_neg hw]
    · rw [if_neg hg, lookupGroup_cons]
      by_cases hw : g.1 = w
      · rw [if_pos hw, if_neg (fun hcon => hg (hw.trans hcon)), lookupGroup_cons,
          if_pos hw]
      · rw [if_neg hw, ih]
        by_cases hwv : w = v
        · rw [if_pos hwv, if_pos hwv, lookupGroup_cons, if_neg hg]
        · rw [if_neg hwv, if_neg hwv, lookupGroup_cons, if_neg hw]

theorem lookup_groupVals_aux (b : Hitori) (cs : List (Int × Int))
    (gs : List (Char × List (Int × Int))) (w : Char) :
    lookupGroup (cs.foldl (fun gs c => addGroup gs (b.getc c.1 c.2) c) gs) w =
      lookupGroup gs w ++ cs.filter (fun c => b.getc c.1 c.2 == w) := by
  induction cs generalizing gs with
  | nil => simp
  | cons c cs ih =>
    rw [List.foldl_cons, ih, lookup_addGroup, List.filter_cons]
    by_cases hw : w = b.getc c.1 c.2
    · subst hw
      rw [if_pos rfl, if_pos (by simp)]
      simp
    · rw [if_neg hw, if_neg (by simp; exact fun hcon => hw hcon.symm)]

theorem lookup_groupVals (b : Hitori) (cs : List (Int × Int)) (w : Char) :
    lookupGroup (groupVals b cs) w = cs.filter (fun c => b.getc c.1 c.2 == w) := by
  have h := lookup_groupVals_aux b cs [] w
  rw [lookupGroup_nil] at h
  simpa [groupVals] using h

theorem addGroup_keys {gs : List (Char × List (Int × Int))} {v : Char} {c : Int × Int} :
    ((addGroup gs v c).map Prod.fst).Nodup ↔ (gs.map Prod.fst).Nodup := by
  induction gs with
  | nil => simp [addGroup_nil]
  | cons g rest ih =>
    rw [addGroup_cons]
    by_cases hg : g.1 = v
    · rw [if_pos hg]
      simp
    · rw [if_neg hg]
      have hmem : ∀ w, w ∈ (addGroup rest v c).map Prod.fst ↔
          (w ∈ rest.map Prod.fst ∨ w = v) := by
        intro w
        clear ih
        induction rest with
        | nil => simp [addGroup_nil]
        | cons g2 rest2 ih2 =>
          rw [addGroup_cons]
          by_cases hg2 : g2.1 = v
          · rw [if_pos hg2]
            simp only [List.map_cons, List.mem_cons]
            constructor
            · rintro (h | h)
              · exact Or.inl (Or.inl h)
              · exact Or.inl (Or.inr h)
            · rintro ((h | h) | h)
              · exact Or.inl h
              · exact Or.inr h
              · exact Or.inl (by rw [h, ← hg2])
          · rw [if_neg hg2]
            simp only [List.map_cons, List.mem_cons, ih2]
            tauto
      simp only [List.map_cons, List.nodup_cons, ih]
      constructor
      · rintro ⟨h1, h2⟩
        exact ⟨fun hc => h1 ((hmem g.1).2 (Or.inl hc)), h2⟩
      · rintro ⟨h1, h2⟩
        refine ⟨fun hc => ?_, h2⟩
        rcases (hmem g.1).1 hc with hc' | hc'
        · exact h1 hc'
        · exact hg hc'

theorem groupVals_keys_nodup (b : Hitori) (cs : List (Int × Int)) :
    ((groupVals b cs).map Prod.fst).Nodup := by
  suffices h : ∀ gs : List (Char × List (Int × Int)), (gs.map Prod.fst).Nodup →
      ((cs.foldl (fun gs c => addGroup gs (b.getc c.1 c.2) c) gs).map Prod.fst).Nodup by
    exact h [] (by simp)
  induction cs with
  | nil => intro gs h; exact h
  | cons c cs ih =>
    intro gs h
    rw [List.foldl_cons]
    exact ih _ (addGroup_keys.2 h)

theorem lookup_of_mem {gs : List (Char × List (Int × Int))}
    (hnd : (gs.map Prod.fst).Nodup) {g : Char × List (Int × Int)} (hg : g ∈ gs) :
    lookupGroup gs g.1 = g.2 := by
  induction gs with
  | nil => cases hg
  | cons g0 rest ih =>
    rw [lookupGroup_cons]
    rcases List.mem_cons.1 hg with rfl | hg'
    · rw [if_pos rfl]
    · rw [List.map_cons, List.nodup_cons] at hnd
      by_cases h0 : g0.1 = g.1
      · exact absurd (h0 ▸ List.mem_map_of_mem Prod.fst hg') hnd.1
      · rw [if_neg h0]
        exact ih hnd.2 hg'

theorem mem_of_lookup_ne_nil {gs : List (Char × List (Int × Int))} {v : Char}
    (h : lookupGroup gs v ≠ []) : (v, lookupGroup gs v) ∈ gs := by
  induction gs with
  | nil => exact absurd rfl h
  | cons g rest ih =>
    rw [lookupGroup_cons] at h ⊢
    by_cases hg : g.1 = v
    · rw [if_pos hg] at h ⊢
      rw [show (v, g.2) = g from by rw [← hg]]
      exact List.mem_cons_self g rest
    · rw [if_neg hg] at h ⊢
      exact List.mem_cons_of_mem g (ih h)

theorem one_lt_length_of_two_mem {β : Type} {l : List β} {a b : β}
    (ha : a ∈ l) (hb : b ∈ l) (hne : a ≠ b) : 1 < l.length := by
  cases l with
  | nil => cases ha
  | cons x xs =>
    cases xs with
    | nil =>
      rw [List.mem_singleton] at ha hb
      exact absurd (ha.trans hb.symm) hne
    | cons y ys =>
      simp only [List.length_cons]
      omega

theorem firstDup_none_clean {b : Hitori} {cells : List (Int × Int)}
    (h : firstDup b cells = none) : cellsClean b cells := by
  intro c1 hc1 c2 hc2 hne hb1 hb2 hcon
  have hf1 : c1 ∈ cells.filter (fun c => !(b.is_blank c.1 c.2)) := by
    rw [List.mem_filter]
    exact ⟨hc1, by rw [hb1]; rfl⟩
  have hf2 : c2 ∈ cells.filter (fun c => !(b.is_blank c.1 c.2)) := by
    rw [List.mem_filter]
    exact ⟨hc2, by rw [hb2]; rfl⟩
  have hl1 : c1 ∈ (cells.filter (fun c => !(b.is_blank c.1 c.2))).filter
      (fun c => b.getc c.1 c.2 == b.getc c1.1 c1.2) := by
    rw [List.mem_filter]
    exact ⟨hf1, by simp⟩
  have hl2 : c2 ∈ (cells.filter (fun c => !(b.is_blank c.1 c.2))).filter
      (fun c => b.getc c.1 c.2 == b.getc c1.1 c1.2) := by
    rw [List.mem_filter]
    exact ⟨hf2, by simp [hcon]⟩
  have hlk := lookup_groupVals b (cells.filter (fun c => !(b.is_blank c.1 c.2)))
    (b.getc c1.1 c1.2)
  have hne' : lookupGroup (groupVals b (cells.filter (fun c => !(b.is_blank c.1 c.2))))
      (b.getc c1.1 c1.2) ≠ [] := by
    rw [hlk]
    intro hcon2
    rw [hcon2] at hl1
    cases hl1
  have hmem := mem_of_lookup_ne_nil hne'
  rw [firstDup] at h
  have hfind : (groupVals b (cells.filter (fun c => !(b.is_blank c.1 c.2)))).find?
      (fun g => decide (1 < g.2.length)) = none := by
    cases hopt : (groupVals b (cells.filter (fun c => !(b.is_blank c.1 c.2)))).find?
        (fun g => decide (1 < g.2.length)) with
    | none => rfl
    | some g =>
      rw [hopt] at h
      cases h
  rw [List.find?_eq_none] at hfind
  apply hfind _ hmem
  simp only [decide_eq_true_eq]
  rw [hlk]
  exact one_lt_length_of_two_mem hl1 hl2 hne

theorem firstDup_some_props {b : Hitori} {cells wh : List (Int × Int)}
    (h : firstDup b cells = some wh) :
    ∃ v : Char, wh = (cells.filter (fun c => !(b.is_blank c.1 c.2))).filter
      (fun c => b.getc c.1 c.2 == v) ∧ 1 < wh.length := by
  rw [firstDup] at h
  cases hopt : (groupVals b (cells.filter (fun c => !(b.is_blank c.1 c.2)))).find?
      (fun g => decide (1 < g.2.length)) with
  | none =>
    rw [hopt] at h
    cases h
  | some g =>
    rw [hopt] at h
    have h2 : some g.2 = some wh := h
    rw [Option.some.injEq] at h2
    have hmem := List.mem_of_find?_eq_some hopt
    have hpred := List.find?_some hopt
    refine ⟨g.1, ?_, ?_⟩
    · rw [← h2, ← lookup_groupVals]
      exact (lookup_of_mem (groupVals_keys_nodup _ _) hmem).symm
    · rw [← h2]
      simpa using hpred

theorem wh_props {b : Hitori} {cells wh : List (Int × Int)} (hnd : cells.Nodup)
    (hdim : ∀ c ∈ cells, inDims b c) (h : firstDup b cells = some wh) :
    wh.Nodup ∧ 1 < wh.length ∧
    (∀ c ∈ wh, c ∈ cells ∧ b.is_blank c.1 c.2 = false ∧ inDims b c) := by
  obtain ⟨v, hwh, hlen⟩ := firstDup_some_props h
  refine ⟨?_, hlen, ?_⟩
  · rw [hwh]
    exact List.Nodup.sublist ((List.filter_sublist _).trans (List.filter_sublist _)) hnd
  · intro c hc
    rw [hwh] at hc
    have hc1 := List.mem_of_mem_filter hc
    have hcm := List.mem_of_mem_filter hc1
    have hbf := List.of_mem_filter hc1
    exact ⟨hcm, by simpa using hbf, hdim c hcm⟩

theorem blanks_pres_int {b r : Hitori} (hwf : b.wf) (hbl : Blanks b r) :
    ∀ c : Int × Int, inDims b c → r.is_blank c.1 c.2 = false →
      r.getc c.1 c.2 = b.getc c.1 c.2 ∧ b.is_blank c.1 c.2 = false := by
  obtain ⟨hwfr, hwr, hhr, hmono, hpres⟩ := blanks_facts hwf hbl
  intro c hdimc hnb
  obtain ⟨hx0, hxw, hy0, hyh⟩ := hdimc
  obtain ⟨p, hp⟩ : ∃ p : Nat, c.1 = (p : Int) := ⟨c.1.toNat, (Int.toNat_of_nonneg hx0).symm⟩
  obtain ⟨q, hq⟩ : ∃ q : Nat, c.2 = (q : Int) := ⟨c.2.toNat, (Int.toNat_of_nonneg hy0).symm⟩
  rw [hp, hq] at hnb ⊢
  rw [hp] at hxw
  rw [hq] at hyh
  exact hpres p q (by exact_mod_cast hxw) (by exact_mod_cast hyh) hnb

theorem cellsClean_mono {b r : Hitori} (hwf : b.wf) (hbl : Blanks b r)
    {cells : List (Int × Int)} (hdim : ∀ c ∈ cells, inDims b c)
    (hclean : cellsClean b cells) : cellsClean r cells := by
  intro c1 hc1 c2 hc2 hne hb1 hb2
  obtain ⟨hg1, hnb1⟩ := blanks_pres_int hwf hbl c1 (hdim c1 hc1) hb1
  obtain ⟨hg2, hnb2⟩ := blanks_pres_int hwf hbl c2 (hdim c2 hc2) hb2
  rw [hg1, hg2]
  exact hclean c1 hc1 c2 hc2 hne hnb1 hnb2

/-! ## Candidate blanking and the termination measure -/

theorem tryBlanks_nil (b : Hitori) : tryBlanks b [] = some b := rfl

theorem tryBlanks_foldl_none (cs : List (Int × Int)) :
    cs.foldl (fun (ob : Option Hitori) (c : Int × Int) =>
      ob.bind (fun b2 => (b2.blank c.1 c.2).toOption)) none = none := by
  induction cs with
  | nil => rfl
  | cons c cs ih => exact ih

theorem tryBlanks_cons (b : Hitori) (c : Int × Int) (cs : List (Int × Int)) :
    tryBlanks b (c :: cs) =
      (match b.blank c.1 c.2 with
      | Except.ok b1 => tryBlanks b1 cs
      | Except.error _ => none) := by
  have hinit : (some b).bind (fun b2 => (b2.blank c.1 c.2).toOption) =
      (b.blank c.1 c.2).toOption := rfl
  show List.foldl _ ((some b).bind (fun b2 => (b2.blank c.1 c.2).toOption)) cs = _
  rw [hinit]
  cases b.blank c.1 c.2 with
  | ok b1 => rfl
  | error e => exact tryBlanks_foldl_none cs

theorem tryBlanks_blanks {b b2 : Hitori} (hwf : b.wf) {cs : List (Int × Int)}
    (hdim : ∀ c ∈ cs, inDims b c) (h : tryBlanks b cs = some b2) : Blanks b b2 := by
  induction cs generalizing b with
  | nil =>
    rw [tryBlanks_nil, Option.some.injEq] at h
    rw [← h]
    exact Relation.ReflTransGen.refl
  | cons c cs ih =>
    rw [tryBlanks_cons] at h
    cases hblank : b.blank c.1 c.2 with
    | error e =>
      rw [hblank] at h
      exact absurd h (by simp)
    | ok b1 =>
      rw [hblank] at h
      obtain ⟨hx0, hxw, hy0, hyh⟩ := hdim c (List.mem_cons_self c cs)
      obtain ⟨p, hp⟩ : ∃ p : Nat, c.1 = (p : Int) := ⟨c.1.toNat, (Int.toNat_of_nonneg hx0).symm⟩
      obtain ⟨q, hq⟩ : ∃ q : Nat, c.2 = (q : Int) := ⟨c.2.toNat, (Int.toNat_of_nonneg hy0).symm⟩
      have hstep : blankStep b b1 := by
        refine ⟨p, q, ?_, ?_, ?_⟩
        · rw [hp] at hxw
          exact_mod_cast hxw
        · rw [hq] at hyh
          exact_mod_cast hyh
        · rw [← hp, ← hq]
          exact hblank
      have hfacts := blankStep_facts hwf hstep
      have hdim' : ∀ c' ∈ cs, inDims b1 c' := by
        intro c' hc'
        obtain ⟨a1, a2, a3, a4⟩ := hdim c' (List.mem_cons_of_mem c hc')
        exact ⟨a1, by rw [hfacts.2.1]; exact a2, a3, by rw [hfacts.2.2.1]; exact a4⟩
      exact Relation.ReflTransGen.head hstep (ih hfacts.1 hdim' h)

theorem sum_map_set (l : List (List Char)) (i : Nat) (a : List Char)
    (hi : i < l.length) :
    ((l.set i a).map (fun r => r.countP (fun ch => !(ch == BLANK)))).sum
        + (l[i]).countP (fun ch => !(ch == BLANK)) =
      (l.map (fun r => r.countP (fun ch => !(ch == BLANK)))).sum
        + a.countP (fun ch => !(ch == BLANK)) := by
  induction l generalizing i with
  | nil => simp at hi
  | cons hd tl ih =>
    cases i with
    | zero =>
      simp only [List.set_cons_zero, List.map_cons, List.sum_cons, List.getElem_cons_zero]
      omega
    | succ j =>
      simp only [List.set_cons_succ, List.map_cons, List.sum_cons, List.getElem_cons_succ]
      have hj : j < tl.length := by
        have := hi
        simp only [List.length_cons] at this
        omega
      have := ih j hj
      omega

theorem countP_slice_le (row : List Char) (u : Nat) :
    ((row.take u ++ [BLANK] ++ row.drop (u + 1)).countP (fun ch => !(ch == BLANK))) ≤
      row.countP (fun ch => !(ch == BLANK)) := by
  rw [List.countP_append, List.countP_append]
  have hb0 : ([BLANK].countP (fun ch => !(ch == BLANK))) = 0 := by decide
  rw [hb0]
  by_cases hu : u < row.length
  · conv_rhs => rw [← List.take_append_drop u row, List.drop_eq_getElem_cons hu]
    rw [List.countP_append, List.countP_cons]
    omega
  · rw [List.take_of_length_le (by omega), List.drop_eq_nil_of_le (by omega)]
    simp

theorem countP_slice_lt (row : List Char) {u : Nat} (hu : u < row.length)
    (hne : row[u] ≠ BLANK) :
    ((row.take u ++ [BLANK] ++ row.drop (u + 1)).countP (fun ch => !(ch == BLANK))) <
      row.countP (fun ch => !(ch == BLANK)) := by
  rw [List.countP_append, List.countP_append]
  have hb0 : ([BLANK].countP (fun ch => !(ch == BLANK))) = 0 := by decide
  rw [hb0]
  conv_rhs => rw [← List.take_append_drop u row, List.drop_eq_getElem_cons hu]
  rw [List.countP_append, List.countP_cons]
  have hpos : (if !(row[u] == BLANK) then 1 else 0) = 1 := by
    simp [hne]
  omega

theorem nonBlank_blank_le {b b2 : Hitori} {x y : Int} (h : b.blank x y = Except.ok b2) :
    b2.nonBlank ≤ b.nonBlank := by
  obtain ⟨_, _, _, _, hlines⟩ := blank_ok_elim h
  by_cases hv : y.toNat < b.lines.length
  · have hrow : b.lines.getD y.toNat [] = b.lines[y.toNat] :=
      List.getD_eq_getElem _ _ hv
    have hsum := sum_map_set
      b.lines y.toNat ((b.lines.getD y.toNat []).take x.toNat ++ [BLANK] ++
        (b.lines.getD y.toNat []).drop (x.toNat + 1)) hv
    have hcount := countP_slice_le (b.lines.getD y.toNat []) x.toNat
    show (b2.lines.map _).sum ≤ (b.lines.map _).sum
    rw [hlines]
    rw [hrow] at hcount hsum ⊢
    omega
  · have hset : b.lines.set y.toNat ((b.lines.getD y.toNat []).take x.toNat ++ [BLANK] ++
        (b.lines.getD y.toNat []).drop (x.toNat + 1)) = b.lines :=
      List.set_eq_of_length_le (by omega)
    show (b2.lines.map _).sum ≤ (b.lines.map _).sum
    rw [hlines, hset]


theorem countP_set_lt (row : List Char) {u : Nat} (hu : u < row.length)
    (hne : row[u] ≠ BLANK) :
    ((row.set u BLANK).countP (fun ch => !(ch == BLANK))) <
      row.countP (fun ch => !(ch == BLANK)) := by
  rw [List.set_eq_take_append_cons_drop, if_pos hu, ← List.singleton_append,
    ← List.append_assoc]
  exact countP_slice_lt row hu hne

theorem nonBlank_blank_lt {b b2 : Hitori} (hwf : b.wf) {u v : Nat}
    (hu : u < b.width) (hv : v < b.height) (hnbl : b.getc (u : Int) (v : Int) ≠ BLANK)
    (h : b.blank (u : Int) (v : Int) = Except.ok b2) :
    b2.nonBlank < b.nonBlank := by
  obtain ⟨hlines, _, _, _⟩ := blank_ok_nat hwf hu hv h
  have hvl : v < b.lines.length := hv
  have hrow : b.lines.getD v [] = b.lines[v] := List.getD_eq_getElem _ _ hvl
  have hul : u < (b.lines[v]).length := by
    rw [← hrow, row_len hwf hv]
    exact hu
  have hgu : (b.lines[v])[u] ≠ BLANK := by
    intro hcon
    apply hnbl
    rw [getc_nat, hrow, List.getD_eq_getElem _ _ hul]
    exact hcon
  have hcount : (((b.lines.getD v []).set u BLANK).countP (fun ch => !(ch == BLANK))) <
      ((b.lines[v]).countP (fun ch => !(ch == BLANK))) := by
    rw [hrow]
    exact countP_set_lt _ hul hgu
  have hsum := sum_map_set
    b.lines v ((b.lines.getD v []).set u BLANK) hvl
  show (b2.lines.map _).sum < (b.lines.map _).sum
  rw [hlines]
  omega

theorem tryBlanks_nonBlank_le {b b2 : Hitori} {cs : List (Int × Int)}
    (h : tryBlanks b cs = some b2) : b2.nonBlank ≤ b.nonBlank := by
  induction cs generalizing b with
  | nil =>
    rw [tryBlanks_nil, Option.some.injEq] at h
    rw [← h]
  | cons c cs ih =>
    rw [tryBlanks_cons] at h
    cases hblank : b.blank c.1 c.2 with
    | error e =>
      rw [hblank] at h
      exact absurd h (by simp)
    | ok b1 =>
      rw [hblank] at h
      exact le_trans (ih h) (nonBlank_blank_le hblank)

theorem branchCands_mem {b b2 : Hitori} {wh : List (Int × Int)}
    (h : b2 ∈ branchCands b wh) :
    (∃ k ∈ wh, tryBlanks b (wh.filter (fun c => c ≠ k)) = some b2) ∨
      tryBlanks b wh = some b2 := by
  rw [branchCands, List.mem_filterMap] at h
  obtain ⟨ob, hob, hid⟩ := h
  rw [List.mem_append] at hob
  rcases hob with hmem | hmem
  · rw [List.mem_map] at hmem
    obtain ⟨k, hk, hke⟩ := hmem
    refine Or.inl ⟨k, hk, ?_⟩
    rw [hke]
    exact hid
  · rw [List.mem_singleton] at hmem
    refine Or.inr ?_
    rw [← hmem]
    exact hid

theorem getc_ne_blank_of_not_blank {b : Hitori} {p q : Nat} (hp : p < b.width)
    (hq : q < b.height) (h : b.is_blank (p : Int) (q : Int) = false) :
    b.getc (p : Int) (q : Int) ≠ BLANK := by
  rw [is_blank_nat hp hq] at h
  simpa using h

theorem filter_ne_nonempty {wh : List (Int × Int)} (hnd : wh.Nodup)
    (hlen : 1 < wh.length) (k : Int × Int) :
    wh.filter (fun c => c ≠ k) ≠ [] := by
  match wh, hlen with
  | c1 :: c2 :: rest, _ =>
    have hne12 : c1 ≠ c2 := by
      rw [List.nodup_cons] at hnd
      exact fun h => hnd.1 (h ▸ List.mem_cons_self c2 rest)
    intro hcon
    rw [List.filter_eq_nil_iff] at hcon
    have t1 := hcon c1 (List.mem_cons_self _ _)
    have t2 := hcon c2 (List.mem_cons_of_mem _ (List.mem_cons_self _ _))
    simp at t1 t2
    exact hne12 (t1.trans t2.symm)

theorem tryBlanks_head_lt {b b2 : Hitori} (hwf : b.wf) {cs : List (Int × Int)}
    (hne : cs ≠ [])
    (hmem : ∀ c ∈ cs, b.is_blank c.1 c.2 = false ∧ inDims b c)
    (htb : tryBlanks b cs = some b2) :
    b2.nonBlank < b.nonBlank := by
  cases cs with
  | nil => exact absurd rfl hne
  | cons c cs' =>
    rw [tryBlanks_cons] at htb
    cases hblank : b.blank c.1 c.2 with
    | error e =>
      rw [hblank] at htb
      exact absurd htb (by simp)
    | ok b1 =>
      rw [hblank] at htb
      have hcnb := (hmem c (List.mem_cons_self _ _)).1
      obtain ⟨hx0, hxw, hy0, hyh⟩ := (hmem c (List.mem_cons_self _ _)).2
      obtain ⟨p, hp⟩ : ∃ p : Nat, c.1 = (p : Int) := ⟨c.1.toNat, (Int.toNat_of_nonneg hx0).symm⟩
      obtain ⟨q, hq⟩ : ∃ q : Nat, c.2 = (q : Int) := ⟨c.2.toNat, (Int.toNat_of_nonneg hy0).symm⟩
      have hpw : p < b.width := by
        rw [hp] at hxw
        exact_mod_cast hxw
      have hqh : q < b.height := by
        rw [hq] at hyh
        exact_mod_cast hyh
      have hbl' : b.blank (p : Int) (q : Int) = Except.ok b1 := by
        rw [← hp, ← hq]
        exact hblank
      have hgne : b.getc (p : Int) (q : Int) ≠ BLANK := by
        refine getc_ne_blank_of_not_blank hpw hqh ?_
        rw [← hp, ← hq]
        exact hcnb
      have h1 : b1.nonBlank < b.nonBlank := nonBlank_blank_lt hwf hpw hqh hgne hbl'
      exact lt_of_le_of_lt (tryBlanks_nonBlank_le htb) h1

theorem branchCands_nonBlank_lt {b b2 : Hitori} (hwf : b.wf)
    {cells wh : List (Int × Int)} (hnd : cells.Nodup)
    (hdim : ∀ c ∈ cells, inDims b c)
    (hfd : firstDup b cells = some wh) (h : b2 ∈ branchCands b wh) :
    b2.nonBlank < b.nonBlank := by
  obtain ⟨hwnd, hwlen, hwmem⟩ := wh_props hnd hdim hfd
  rcases branchCands_mem h with ⟨k, _, htb⟩ | htb
  · refine tryBlanks_head_lt hwf (filter_ne_nonempty hwnd hwlen k) ?_ htb
    intro c hc
    have := hwmem c (List.mem_of_mem_filter hc)
    exact ⟨this.2.1, this.2.2⟩
  · refine tryBlanks_head_lt hwf ?_ ?_ htb
    · intro hcon
      rw [hcon] at hwlen
      simp at hwlen
    · intro c hc
      have := hwmem c hc
      exact ⟨this.2.1, this.2.2⟩

theorem branchCands_blanks {b b2 : Hitori} (hwf : b.wf) {wh : List (Int × Int)}
    (hdim : ∀ c ∈ wh, inDims b c) (h : b2 ∈ branchCands b wh) : Blanks b b2 := by
  rcases branchCands_mem h with ⟨k, _, htb⟩ | htb
  · exact tryBlanks_blanks hwf (fun c hc => hdim c (List.mem_of_mem_filter hc)) htb
  · exact tryBlanks_blanks hwf hdim htb

/-! ## Line coordinates and stage transport -/

theorem rowCoords_inDims {b : Hitori} {y : Nat} (hy : y < b.height) :
    ∀ c ∈ b.rowCoords y, inDims b c := by
  intro c hc
  rw [Hitori.rowCoords] at hc
  obtain ⟨x, hx, hxe⟩ := List.mem_map.mp hc
  rw [List.mem_range] at hx
  rw [← hxe]
  refine ⟨Int.natCast_nonneg x, ?_, Int.natCast_nonneg y, ?_⟩
  · show ((x : Int)) < ((b.width : Nat) : Int)
    exact_mod_cast hx
  · show ((y : Int)) < ((b.height : Nat) : Int)
    exact_mod_cast hy

theorem colCoords_inDims {b : Hitori} {x : Nat} (hx : x < b.width) :
    ∀ c ∈ b.colCoords x, inDims b c := by
  intro c hc
  rw [Hitori.colCoords] at hc
  obtain ⟨y, hy, hye⟩ := List.mem_map.mp hc
  rw [List.mem_range] at hy
  rw [← hye]
  refine ⟨Int.natCast_nonneg x, ?_, Int.natCast_nonneg y, ?_⟩
  · show ((x : Int)) < ((b.width : Nat) : Int)
    exact_mod_cast hx
  · show ((y : Int)) < ((b.height : Nat) : Int)
    exact_mod_cast hy

theorem rowCoords_congr {b b2 : Hitori} (hw : b2.width = b.width) (y : Nat) :
    b2.rowCoords y = b.rowCoords y := by
  rw [Hitori.rowCoords, Hitori.rowCoords, hw]

theorem colCoords_congr {b b2 : Hitori} (hh : b2.height = b.height) (x : Nat) :
    b2.colCoords x = b.colCoords x := by
  rw [Hitori.colCoords, Hitori.colCoords, hh]

theorem stageOK_congr {b b2 : Hitori} (hw : b2.width = b.width)
    (hh : b2.height = b.height) {s : Stage} (h : stageOK s b) : stageOK s b2 := by
  cases s with
  | row y =>
    show y < b2.height
    rw [hh]
    exact h
  | col x =>
    show x < b2.width
    rw [hw]
    exact h
  | conn => exact h.elim
  | collect => exact h.elim

/-! ## Unfolding the pipeline driver -/

theorem run_nil (b : Hitori) : run b [] = ∅ := by
  rw [run]

theorem run_conn (b : Hitori) (rest : List Stage) :
    run b (Stage.conn :: rest) = if connCheck b then run b rest else ∅ := by
  rw [run]

theorem run_collect (b : Hitori) (rest : List Stage) :
    run b (Stage.collect :: rest) = insert b (run b rest) := by
  rw [run]

theorem run_row (b : Hitori) (y : Nat) (rest : List Stage) :
    run b (Stage.row y :: rest) =
      (match firstDup b (b.rowCoords y) with
      | none => run b rest
      | some wh =>
        ((branchCands b wh).map (fun b2 =>
          if h : b2.nonBlank < b.nonBlank then run b2 (Stage.row y :: rest)
          else ∅)).foldr (fun s acc => s ∪ acc) ∅) := by
  rw [run]

theorem run_col (b : Hitori) (x : Nat) (rest : List Stage) :
    run b (Stage.col x :: rest) =
      (match firstDup b (b.colCoords x) with
      | none => run b rest
      | some wh =>
        ((branchCands b wh).map (fun b2 =>
          if h : b2.nonBlank < b.nonBlank then run b2 (Stage.col x :: rest)
          else ∅)).foldr (fun s acc => s ∪ acc) ∅) := by
  rw [run]

/-! ## Soundness of the pipeline -/

theorem run_sound (n : Nat) : ∀ (b : Hitori) (ls : List Stage), b.nonBlank ≤ n →
    b.wf → (∀ s ∈ ls, stageOK s b) →
    ∀ r ∈ run b (ls ++ [Stage.conn, Stage.collect]),
      Blanks b r ∧ (∀ s ∈ ls, linePost s r) ∧ connCheck r = true := by
  induction n using Nat.strong_induction_on with
  | _ n ihn =>
    intro b ls
    induction ls with
    | nil =>
      intro hle hwf hok r hr
      rw [List.nil_append, run_conn] at hr
      by_cases hc : connCheck b
      · rw [if_pos hc, run_collect, run_nil] at hr
        rw [Finset.mem_insert] at hr
        rcases hr with hr | hr
        · subst hr
          exact ⟨Relation.ReflTransGen.refl, fun s hs => absurd hs (List.not_mem_nil s), hc⟩
        · exact absurd hr (Finset.not_mem_empty r)
      · rw [if_neg hc] at hr
        exact absurd hr (Finset.not_mem_empty r)
    | cons s ls ihls =>
      intro hle hwf hok r hr
      cases s with
      | conn => exact (hok _ (List.mem_cons_self _ _)).elim
      | collect => exact (hok _ (List.mem_cons_self _ _)).elim
      | row y =>
        have hy : y < b.height := hok _ (List.mem_cons_self _ _)
        rw [List.cons_append, run_row] at hr
        cases hfd : firstDup b (b.rowCoords y) with
        | none =>
          rw [hfd] at hr
          obtain ⟨hbl, hpost, hconn⟩ :=
            ihls hle hwf (fun s hs => hok s (List.mem_cons_of_mem _ hs)) r hr
          refine ⟨hbl, ?_, hconn⟩
          intro s hs
          rcases List.mem_cons.mp hs with hse | hs'
          · subst hse
            show cellsClean r (r.rowCoords y)
            obtain ⟨_, hwr, _, _, _⟩ := blanks_facts hwf hbl
            rw [rowCoords_congr hwr]
            exact cellsClean_mono hwf hbl (rowCoords_inDims hy) (firstDup_none_clean hfd)
          · exact hpost s hs'
        | some wh =>
          rw [hfd] at hr
          rw [mem_foldr_union] at hr
          obtain ⟨t, ht, hrt⟩ := hr
          obtain ⟨b2, hb2, hteq⟩ := List.mem_map.mp ht
          by_cases hlt : b2.nonBlank < b.nonBlank
          · rw [dif_pos hlt] at hteq
            rw [← hteq] at hrt
            have hwdim : ∀ c ∈ wh, inDims b c := by
              intro c hc
              obtain ⟨_, _, hwhm⟩ := wh_props
                (List.Nodup.map (fun a1 a2 he => by
                  have h2 : ((a1 : Int)) = ((a2 : Int)) := congrArg Prod.fst he
                  exact_mod_cast h2) (List.nodup_range _))
                (rowCoords_inDims hy) hfd
              exact (hwhm c hc).2.2
            have hbb2 : Blanks b b2 := branchCands_blanks hwf hwdim hb2
            obtain ⟨hwf2, hw2, hh2, _, _⟩ := blanks_facts hwf hbb2
            have hok2 : ∀ s ∈ Stage.row y :: ls, stageOK s b2 :=
              fun s hs => stageOK_congr hw2 hh2 (hok s hs)
            obtain ⟨hbl2, hpost2, hconn2⟩ :=
              ihn b2.nonBlank (lt_of_lt_of_le hlt hle) b2 (Stage.row y :: ls) le_rfl
                hwf2 hok2 r hrt
            exact ⟨hbb2.trans hbl2, hpost2, hconn2⟩
          · rw [dif_neg hlt] at hteq
            rw [← hteq] at hrt
            exact absurd hrt (Finset.not_mem_empty r)
      | col x =>
        have hx : x < b.width := hok _ (List.mem_cons_self _ _)
        rw [List.cons_append, run_col] at hr
        cases hfd : firstDup b (b.colCoords x) with
        | none =>
          rw [hfd] at hr
          obtain ⟨hbl, hpost, hconn⟩ :=
            ihls hle hwf (fun s hs => hok s (List.mem_cons_of_mem _ hs)) r hr
          refine ⟨hbl, ?_, hconn⟩
          intro s hs
          rcases List.mem_cons.mp hs with hse | hs'
          · subst hse
            show cellsClean r (r.colCoords x)
            obtain ⟨_, _, hhr, _, _⟩ := blanks_facts hwf hbl
            rw [colCoords_congr hhr]
            exact cellsClean_mono hwf hbl (colCoords_inDims hx) (firstDup_none_clean hfd)
          · exact hpost s hs'
        | some wh =>
          rw [hfd] at hr
          rw [mem_foldr_union] at hr
          obtain ⟨t, ht, hrt⟩ := hr
          obtain ⟨b2, hb2, hteq⟩ := List.mem_map.mp ht
          by_cases hlt : b2.nonBlank < b.nonBlank
          · rw [dif_pos hlt] at hteq
            rw [← hteq] at hrt
            have hwdim : ∀ c ∈ wh, inDims b c := by
              intro c hc
              obtain ⟨_, _, hwhm⟩ := wh_props
                (List.Nodup.map (fun a1 a2 he => by
                  have h2 : ((a1 : Int)) = ((a2 : Int)) := congrArg Prod.snd he
                  exact_mod_cast h2) (List.nodup_range _))
                (colCoords_inDims hx) hfd
              exact (hwhm c hc).2.2
            have hbb2 : Blanks b b2 := branchCands_blanks hwf hwdim hb2
            obtain ⟨hwf2, hw2, hh2, _, _⟩ := blanks_facts hwf hbb2
            have hok2 : ∀ s ∈ Stage.col x :: ls, stageOK s b2 :=
              fun s hs => stageOK_congr hw2 hh2 (hok s hs)
            obtain ⟨hbl2, hpost2, hconn2⟩ :=
              ihn b2.nonBlank (lt_of_lt_of_le hlt hle) b2 (Stage.col x :: ls) le_rfl
                hwf2 hok2 r hrt
            exact ⟨hbb2.trans hbl2, hpost2, hconn2⟩
          · rw [dif_neg hlt] at hteq
            rw [← hteq] at hrt
            exact absurd hrt (Finset.not_mem_empty r)

/-! ## The connectivity check certifies one region -/

theorem getLastD_mem {β : Type} {l : List β} (h : l ≠ []) (d : β) :
    l.getLastD d ∈ l := by
  cases l with
  | nil => exact absurd rfl h
  | cons a t =>
    rw [List.getLastD_eq_getLast?, List.getLast?_eq_getLast (a :: t) (by simp)]
    simp only [Option.getD_some]
    exact List.getLast_mem _

theorem mem_nonBlankRow {b : Hitori} {y : Nat} {c : Int × Int}
    (hc : c ∈ (List.range b.width).filterMap (fun x : Nat =>
      if b.is_blank (x : Int) (y : Int) then none
      else some ((x : Int), (y : Int)))) :
    c.2 = (y : Int) := by
  obtain ⟨x, _, hfx⟩ := List.mem_filterMap.mp hc
  by_cases hbl : b.is_blank (x : Int) (y : Int)
  · rw [if_pos hbl] at hfx
    exact absurd hfx (by simp)
  · rw [if_neg hbl, Option.some.injEq] at hfx
    rw [← hfx]

theorem nonBlankRow_nodup (b : Hitori) (y : Nat) :
    ((List.range b.width).filterMap (fun x : Nat =>
      if b.is_blank (x : Int) (y : Int) then none
      else some ((x : Int), (y : Int)))).Nodup := by
  refine List.Nodup.filterMap ?_ (List.nodup_range _)
  intro a a' c hca hca'
  by_cases hba : b.is_blank (a : Int) (y : Int)
  · rw [if_pos hba] at hca
    exact absurd hca (by simp)
  · rw [if_neg hba, Option.mem_def, Option.some.injEq] at hca
    by_cases hba' : b.is_blank (a' : Int) (y : Int)
    · rw [if_pos hba'] at hca'
      exact absurd hca' (by simp)
    · rw [if_neg hba', Option.mem_def, Option.some.injEq] at hca'
      have h2 : ((a : Int)) = ((a' : Int)) :=
        (congrArg Prod.fst hca).trans (congrArg Prod.fst hca').symm
      exact_mod_cast h2

theorem nonBlankCoords_nodup (b : Hitori) : b.nonBlankCoords.Nodup := by
  rw [Hitori.nonBlankCoords, List.flatMap_def, List.nodup_flatten]
  constructor
  · intro l hl
    obtain ⟨y, _, hfy⟩ := List.mem_map.mp hl
    rw [← hfy]
    exact nonBlankRow_nodup b y
  · rw [List.pairwise_map]
    refine List.Pairwise.imp ?_ (List.pairwise_lt_range b.height)
    intro y1 y2 hlt
    rw [List.disjoint_left]
    intro c hc1 hc2
    have e1 := mem_nonBlankRow hc1
    have e2 := mem_nonBlankRow hc2
    rw [e1] at e2
    have : y1 = y2 := by exact_mod_cast e2
    omega

theorem adjStep_symm {b : Hitori} {c d : Int × Int} (h : adjStep b c d) :
    adjStep b d c := by
  obtain ⟨hc, hd, hadj⟩ := h
  refine ⟨hd, hc, ?_⟩
  rcases hadj with he | he | he | he
  all_goals subst he
  · refine Or.inr (Or.inl ?_)
    show c = (c.1 + 1 - 1, c.2)
    rw [add_sub_cancel_right]
  · refine Or.inl ?_
    show c = (c.1 - 1 + 1, c.2)
    rw [sub_add_cancel]
  · refine Or.inr (Or.inr (Or.inr ?_))
    show c = (c.1, c.2 + 1 - 1)
    rw [add_sub_cancel_right]
  · refine Or.inr (Or.inr (Or.inl ?_))
    show c = (c.1, c.2 - 1 + 1)
    rw [sub_add_cancel]

theorem mem_nbrPairs {cells : List (Int × Int)} {pr : (Int × Int) × (Int × Int)}
    (h : pr ∈ nbrPairs cells) : adjacent pr.1 pr.2 := by
  rw [nbrPairs, List.mem_flatMap] at h
  obtain ⟨c, _, hmem⟩ := h
  simp only [List.mem_cons, List.not_mem_nil, or_false] at hmem
  rcases hmem with he | he | he | he
  · rw [he]
    exact Or.inr (Or.inl rfl)
  · rw [he]
    exact Or.inl rfl
  · rw [he]
    exact Or.inr (Or.inr (Or.inr rfl))
  · rw [he]
    exact Or.inr (Or.inr (Or.inl rfl))

theorem linked_adjacency {b : Hitori} {c d : Int × Int}
    (h : Linked b.nonBlankCoords (nbrPairs b.nonBlankCoords) c d) :
    Relation.ReflTransGen (adjStep b) c d := by
  induction h with
  | base hmem ha hb => exact Relation.ReflTransGen.single ⟨ha, hb, mem_nbrPairs hmem⟩
  | refl _ => exact Relation.ReflTransGen.refl
  | symm _ ih => exact rtg_symm (fun _ _ hs => adjStep_symm hs) ih
  | trans _ _ ih1 ih2 => exact Relation.ReflTransGen.trans ih1 ih2

theorem foldl_unionNbrs (u : UnionFind (Int × Int)) (cs : List (Int × Int)) :
    cs.foldl unionNbrs u = runUnions u (nbrPairs cs) := by
  induction cs generalizing u with
  | nil => rfl
  | cons c cs ih =>
    show cs.foldl unionNbrs (unionNbrs u c) = runUnions u (nbrPairs (c :: cs))
    have hsplit : nbrPairs (c :: cs) =
        [(c, (c.1 - 1, c.2)), (c, (c.1 + 1, c.2)), (c, (c.1, c.2 - 1)),
          (c, (c.1, c.2 + 1))] ++ nbrPairs cs := rfl
    rw [ih, hsplit]
    rfl

theorem connCheck_oneRegion {b : Hitori} (h : connCheck b = true) : oneRegion b := by
  intro c hc d hd
  have hne : b.nonBlankCoords ≠ [] := List.ne_nil_of_mem hc
  have hK : 0 < b.nonBlankCoords.length := List.length_pos.mpr hne
  rw [connCheck] at h
  rw [if_pos hK, decide_eq_true_eq, foldl_unionNbrs] at h
  obtain ⟨inv, hkeys, hiff⟩ :=
    runUnions_corr (nonBlankCoords_nodup b) (nbrPairs b.nonBlankCoords)
  set u := runUnions (UnionFind.init b.nonBlankCoords) (nbrPairs b.nonBlankCoords)
    with hu
  have hlast : b.nonBlankCoords.getLastD ((0 : Int), (0 : Int)) ∈ b.nonBlankCoords :=
    getLastD_mem hne _
  have hlastk : b.nonBlankCoords.getLastD ((0 : Int), (0 : Int)) ∈ u.keys := by
    rw [hkeys]
    exact hlast
  obtain ⟨hfind, _, _, _, _, _⟩ := find_spec inv hlastk
  rw [hfind] at h
  obtain ⟨n, hiter, hroot⟩ := rootD_reaches (ufbase_of_inv inv) hlastk
  have hrmem : u.rootOf (b.nonBlankCoords.getLastD ((0 : Int), (0 : Int))) ∈ u.keys := by
    have hmem := pstep_iterate_mem
      (fun x hx => (ufbase_of_inv inv).closed x hx) hlastk n
    rw [hiter] at hmem
    exact hmem
  have hroot2 : isRootF u.leaders
      (u.rootOf (b.nonBlankCoords.getLastD ((0 : Int), (0 : Int)))) := hroot
  have hsizes := inv.sizes _ hrmem hroot2
  have h3 := hsizes.symm.trans h
  rw [hkeys] at h3
  have hall := List.filter_length_eq_length.mp h3
  have hca := hall c hc
  have hda := hall d hd
  rw [decide_eq_true_eq] at hca hda
  have hcd : u.rootOf c = u.rootOf d := by rw [hca, hda]
  exact linked_adjacency ((hiff c hc d hd).mp hcd)

/-! ## Remaining helpers for the claims -/

theorem set_eq_self_of_getElem {β : Type} {l : List β} {i : Nat} {c : β}
    (hi : i < l.length) (h : l[i] = c) : l.set i c = l := by
  apply List.ext_getElem
  · rw [List.length_set]
  · intro n h1 h2
    rw [List.getElem_set]
    split
    · next he =>
      subst he
      exact h.symm
    · rfl

theorem adjOK_iff_bounded {b : Hitori} :
    adjOK b ↔ ∀ p < b.width, ∀ q < b.height,
      (¬(b.is_blank (p : Int) (q : Int) = true ∧
        b.is_blank ((p : Int) + 1) (q : Int) = true)) ∧
      (¬(b.is_blank (p : Int) (q : Int) = true ∧
        b.is_blank (p : Int) ((q : Int) + 1) = true)) := by
  constructor
  · intro h p _ q _
    exact h (p : Int) (q : Int)
  · intro h x y
    constructor
    · rintro ⟨h1, h2⟩
      obtain ⟨hx0, hxw, hy0, hyh, _⟩ := is_blank_inDims h1
      obtain ⟨p, rfl⟩ : ∃ p : Nat, x = (p : Int) := ⟨x.toNat, (Int.toNat_of_nonneg hx0).symm⟩
      obtain ⟨q, rfl⟩ : ∃ q : Nat, y = (q : Int) := ⟨y.toNat, (Int.toNat_of_nonneg hy0).symm⟩
      exact (h p (by exact_mod_cast hxw) q (by exact_mod_cast hyh)).1 ⟨h1, h2⟩
    · rintro ⟨h1, h2⟩
      obtain ⟨hx0, hxw, hy0, hyh, _⟩ := is_blank_inDims h1
      obtain ⟨p, rfl⟩ : ∃ p : Nat, x = (p : Int) := ⟨x.toNat, (Int.toNat_of_nonneg hx0).symm⟩
      obtain ⟨q, rfl⟩ : ∃ q : Nat, y = (q : Int) := ⟨y.toNat, (Int.toNat_of_nonneg hy0).symm⟩
      exact (h p (by exact_mod_cast hxw) q (by exact_mod_cast hyh)).2 ⟨h1, h2⟩

/-! ## The claims -/

/-- C1: for every well-formed input board (rectangular, nonempty, no BLANK
sentinel among its symbols), every board in the set returned by `solve`
satisfies all three Hitori conditions simultaneously: no row and no column
contains two non-blank cells with the same symbol, no two blanked cells
are orthogonally adjacent, and the non-blank cells form a single
orthogonally-connected region. -/
theorem C1_solve_meets_hitori_conditions {b : Hitori} (h : WellFormed b) :
    ∀ r ∈ solve b, rowsOK r ∧ colsOK r ∧ adjOK r ∧ oneRegion r := by
  obtain ⟨hwf, hne, hnb⟩ := h
  intro r hr
  simp only [solve] at hr
  have hr2 := hr
  have hok : ∀ s ∈ ((List.range b.size.2).map Stage.row ++
      (List.range b.size.1).map Stage.col), stageOK s b := by
    intro s hs
    rcases List.mem_append.mp hs with hs | hs
    · obtain ⟨y, hy, hye⟩ := List.mem_map.mp hs
      rw [List.mem_range] at hy
      rw [← hye]
      exact hy
    · obtain ⟨x, hx, hxe⟩ := List.mem_map.mp hs
      rw [List.mem_range] at hx
      rw [← hxe]
      exact hx
  obtain ⟨hbl, hpost, hconn⟩ := run_sound b.nonBlank b _ le_rfl hwf hok r hr2
  obtain ⟨hwfr, hwr, hhr, _, _⟩ := blanks_facts hwf hbl
  refine ⟨?_, ?_, adjOK_blanks hwf (adjOK_of_noBlank hnb) hbl,
    connCheck_oneRegion hconn⟩
  · intro y hy
    rw [hhr] at hy
    exact hpost _ (List.mem_append_left _
      (List.mem_map_of_mem Stage.row (List.mem_range.mpr hy)))
  · intro x hx
    rw [hwr] at hx
    exact hpost _ (List.mem_append_right _
      (List.mem_map_of_mem Stage.col (List.mem_range.mpr hx)))

theorem C1_witness :
    WellFormed ⟨[['1', '1'], ['2', '1']]⟩ ∧
    ∀ r ∈ solve ⟨[['1', '1'], ['2', '1']]⟩,
      rowsOK r ∧ colsOK r ∧ adjOK r ∧ oneRegion r :=
  ⟨by decide, C1_solve_meets_hitori_conditions (by decide)⟩

/-- C2: for every (duplicate-free) initial key set `K` and every sequence
of `union` calls on a union-find built from `K`, `connected a b` is true
for tracked keys exactly when `a` and `b` lie in the same component of the
reflexive-transitive-symmetric closure of the unioned pairs restricted to
`K`; and `find` applied to a key never inserted returns the absent result
`(none, 0)`. -/
theorem C2_connected_iff_closure_and_absent_find {α : Type} [DecidableEq α]
    (K : List α) (hK : K.Nodup) (ps : List (α × α)) :
    (∀ a ∈ K, ∀ b ∈ K,
      ((runUnions (UnionFind.init K) ps).connected a b = true ↔ Linked K ps a b)) ∧
    (∀ x, x ∉ K → ((runUnions (UnionFind.init K) ps).find x).1 = (none, 0)) := by
  obtain ⟨inv, hkeys, hiff⟩ := runUnions_corr hK ps
  constructor
  · intro a ha b hb
    rw [connected_iff inv (by rw [hkeys]; exact ha) (by rw [hkeys]; exact hb)]
    exact hiff a ha b hb
  · intro x hx
    have hx2 : x ∉ (runUnions (UnionFind.init K) ps).keys := by
      rw [hkeys]
      exact hx
    rw [find_not_mem hx2]

theorem C2_witness :
    ([1, 2, 3] : List Nat).Nodup ∧
    ((∀ a ∈ ([1, 2, 3] : List Nat), ∀ b ∈ ([1, 2, 3] : List Nat),
      ((runUnions (UnionFind.init ([1, 2, 3] : List Nat)) [(1, 2)]).connected a b = true ↔
        Linked [1, 2, 3] [(1, 2)] a b)) ∧
    (∀ x, x ∉ ([1, 2, 3] : List Nat) →
      ((runUnions (UnionFind.init ([1, 2, 3] : List Nat)) [(1, 2)]).find x).1 =
        (none, 0))) :=
  ⟨by decide, C2_connected_iff_closure_and_absent_find [1, 2, 3] (by decide) [(1, 2)]⟩

/-- C3: for every board and in-range coordinates `(x, y)` with at least one
already-blank orthogonal neighbour, `blank x y` fails with the
adjacency-violation error.  The receiver is unchanged by the failed call:
the embedded `blank` is a pure function of the board and the error branch
is taken before any new line is built, so no observable state differs. -/
theorem C3_blank_fails_on_adjacent_blank {b : Hitori} {x y : Int}
    (hx : 0 ≤ x ∧ x < (b.width : Int)) (hy : 0 ≤ y ∧ y < (b.height : Int))
    (hnbr : b.is_blank (x - 1) y = true ∨ b.is_blank (x + 1) y = true ∨
      b.is_blank x (y - 1) = true ∨ b.is_blank x (y + 1) = true) :
    b.blank x y = Except.error BlankError.adjacent :=
  blank_eq_error hnbr

theorem C3_witness :
    ((0 : Int) ≤ 1 ∧ (1 : Int) < ((Hitori.mk [['#', '2'], ['3', '4']]).width : Int)) ∧
    ((0 : Int) ≤ 0 ∧ (0 : Int) < ((Hitori.mk [['#', '2'], ['3', '4']]).height : Int)) ∧
    ((Hitori.mk [['#', '2'], ['3', '4']]).is_blank (1 - 1) 0 = true ∨
      (Hitori.mk [['#', '2'], ['3', '4']]).is_blank (1 + 1) 0 = true ∨
      (Hitori.mk [['#', '2'], ['3', '4']]).is_blank 1 (0 - 1) = true ∨
      (Hitori.mk [['#', '2'], ['3', '4']]).is_blank 1 (0 + 1) = true) ∧
    (Hitori.mk [['#', '2'], ['3', '4']]).blank 1 0 = Except.error BlankError.adjacent :=
  ⟨by decide, by decide, by decide,
    C3_blank_fails_on_adjacent_blank (by decide) (by decide) (by decide)⟩

/-- C4: if `blank x y` on a rectangular board succeeds at in-range
coordinates, the result has the same width and height, every cell other
than `(x, y)` is unchanged, and `is_blank x y` holds on the result. -/
theorem C4_blank_success_shape {b b2 : Hitori} (hwf : b.wf) {x y : Nat}
    (hx : x < b.width) (hy : y < b.height)
    (h : b.blank (x : Int) (y : Int) = Except.ok b2) :
    b2.width = b.width ∧ b2.height = b.height ∧
    (∀ p q : Nat, p < b.width → q < b.height → ¬(p = x ∧ q = y) →
      b2.getc (p : Int) (q : Int) = b.getc (p : Int) (q : Int)) ∧
    b2.is_blank (x : Int) (y : Int) = true := by
  obtain ⟨hlines, hw, hh, hwf2⟩ := blank_ok_nat hwf hx hy h
  refine ⟨hw, hh, ?_, ?_⟩
  · intro p q hp hq hne
    rw [getc_blank hwf hx hy h p q hp hq, if_neg hne]
  · rw [is_blank_blank hwf hx hy h]
    exact Or.inl rfl

theorem C4_witness :
    (Hitori.mk [['1', '2'], ['3', '4']]).wf ∧
    0 < (Hitori.mk [['1', '2'], ['3', '4']]).width ∧
    0 < (Hitori.mk [['1', '2'], ['3', '4']]).height ∧
    ((Hitori.mk [['1', '2'], ['3', '4']]).blank 0 0 =
      Except.ok (Hitori.mk [['#', '2'], ['3', '4']])) ∧
    ((Hitori.mk [['#', '2'], ['3', '4']]).width =
        (Hitori.mk [['1', '2'], ['3', '4']]).width ∧
      (Hitori.mk [['#', '2'], ['3', '4']]).height =
        (Hitori.mk [['1', '2'], ['3', '4']]).height ∧
      (∀ p q : Nat, p < (Hitori.mk [['1', '2'], ['3', '4']]).width →
        q < (Hitori.mk [['1', '2'], ['3', '4']]).height → ¬(p = 0 ∧ q = 0) →
        (Hitori.mk [['#', '2'], ['3', '4']]).getc (p : Int) (q : Int) =
          (Hitori.mk [['1', '2'], ['3', '4']]).getc (p : Int) (q : Int)) ∧
      (Hitori.mk [['#', '2'], ['3', '4']]).is_blank 0 0 = true) :=
  ⟨by decide, by decide, by decide, by decide,
    C4_blank_success_shape (by decide) (by decide) (by decide) (by decide)⟩

/-- C5: for every union-find reachable from construction by a sequence of
`union` and `find` calls, every tracked key reaches, following leader
links, a representative that maps to itself, and the class size stored at
a representative equals the number of tracked keys whose chains reach
it. -/
theorem C5_reachable_invariant {α : Type} [DecidableEq α] (K : List α)
    (hK : K.Nodup) (ops : List (Op α)) :
    (∀ x ∈ (runOps (UnionFind.init K) ops).keys, ∃ n : Nat,
      isRootF (runOps (UnionFind.init K) ops).leaders
        ((pstep (runOps (UnionFind.init K) ops).leaders)^[n] x)) ∧
    (∀ r ∈ (runOps (UnionFind.init K) ops).keys,
      isRootF (runOps (UnionFind.init K) ops).leaders r →
      ((runOps (UnionFind.init K) ops).leaders r).2 =
        ((runOps (UnionFind.init K) ops).keys.filter
          (fun x => (runOps (UnionFind.init K) ops).rootOf x = r)).length) := by
  obtain ⟨inv, _⟩ := runOps_inv hK ops
  exact ⟨inv.rooted, inv.sizes⟩

theorem C5_witness :
    ([1, 2] : List Nat).Nodup ∧
    ((∀ x ∈ (runOps (UnionFind.init ([1, 2] : List Nat))
        [Op.union 1 2, Op.find 1]).keys, ∃ n : Nat,
      isRootF (runOps (UnionFind.init ([1, 2] : List Nat))
          [Op.union 1 2, Op.find 1]).leaders
        ((pstep (runOps (UnionFind.init ([1, 2] : List Nat))
          [Op.union 1 2, Op.find 1]).leaders)^[n] x)) ∧
    (∀ r ∈ (runOps (UnionFind.init ([1, 2] : List Nat))
        [Op.union 1 2, Op.find 1]).keys,
      isRootF (runOps (UnionFind.init ([1, 2] : List Nat))
          [Op.union 1 2, Op.find 1]).leaders r →
      ((runOps (UnionFind.init ([1, 2] : List Nat))
          [Op.union 1 2, Op.find 1]).leaders r).2 =
        ((runOps (UnionFind.init ([1, 2] : List Nat))
            [Op.union 1 2, Op.find 1]).keys.filter
          (fun x => (runOps (UnionFind.init ([1, 2] : List Nat))
            [Op.union 1 2, Op.find 1]).rootOf x = r)).length)) :=
  ⟨by decide, C5_reachable_invariant [1, 2] (by decide) [Op.union 1 2, Op.find 1]⟩

/-- C6: the claim that `find` repoints every visited key straight at the
discovered representative is refuted.  On keys `1, 2, 3, 4` after
`union 1 2; union 2 3; union 3 4` the leader chain is
`1 ↦ 2 ↦ 3 ↦ 4`; `find 1` walks it, returns the representative pair
`(4, 4)`, but leaves key `1` pointing at `(3, 3)` — its grandparent's old
entry, not the representative's: the loop performs path halving, one
re-pointing per visited key to the entry of the next key on the chain. -/
theorem C6_full_compression_counterexample :
    ((runOps (UnionFind.init ([1, 2, 3, 4] : List Nat))
        [Op.union 1 2, Op.union 2 3, Op.union 3 4]).find 1).1 = (some 4, 4) ∧
    (((runOps (UnionFind.init ([1, 2, 3, 4] : List Nat))
        [Op.union 1 2, Op.union 2 3, Op.union 3 4]).find 1).2.leaders 1 = (3, 3)) ∧
    ¬(((runOps (UnionFind.init ([1, 2, 3, 4] : List Nat))
        [Op.union 1 2, Op.union 2 3, Op.union 3 4]).find 1).2.leaders 1 = (4, 4)) := by
  refine ⟨?_, ?_, ?_⟩ <;> decide

/-- C6 (amended): for every union-find state satisfying the invariant and
every tracked key `p`, `find p` returns the pair of `p`'s representative
and the class size stored there, and each key's stored entry is either
unchanged or replaced by the old entry of its old leader (path halving:
each visited key is re-pointed one step along the chain, not straight at
the representative). -/
theorem C6_amended_path_halving {α : Type} [DecidableEq α] {u : UnionFind α}
    (inv : UFInv u) {p : α} (hp : p ∈ u.keys) :
    (u.find p).1 = (some (u.rootOf p), (u.leaders (u.rootOf p)).2) ∧
    (∀ x, (u.find p).2.leaders x = u.leaders x ∨
      (u.find p).2.leaders x = u.leaders ((u.leaders x).1)) := by
  obtain ⟨h1, _, h3, _, _, _⟩ := find_spec inv hp
  exact ⟨h1, h3⟩

theorem C6_amended_witness :
    UFInv (UnionFind.init ([1, 2] : List Nat)) ∧
    1 ∈ (UnionFind.init ([1, 2] : List Nat)).keys ∧
    (((UnionFind.init ([1, 2] : List Nat)).find 1).1 =
      (some ((UnionFind.init ([1, 2] : List Nat)).rootOf 1),
        ((UnionFind.init ([1, 2] : List Nat)).leaders
          ((UnionFind.init ([1, 2] : List Nat)).rootOf 1)).2) ∧
    (∀ x, ((UnionFind.init ([1, 2] : List Nat)).find 1).2.leaders x =
        (UnionFind.init ([1, 2] : List Nat)).leaders x ∨
      ((UnionFind.init ([1, 2] : List Nat)).find 1).2.leaders x =
        (UnionFind.init ([1, 2] : List Nat)).leaders
          (((UnionFind.init ([1, 2] : List Nat)).leaders x).1))) :=
  ⟨init_inv (by decide), by decide,
    C6_amended_path_halving (init_inv (by decide)) (by decide)⟩

/-- C7: constructing a board from lines of unequal length fails at
construction (the constructor's assertion): whenever some line's length
differs from the first line's, `make` returns `none` rather than a
truncated or padded board. -/
theorem C7_make_ragged_fails (lines : List (List Char))
    (h : ∃ l ∈ lines, l.length ≠ (lines.headD []).length) :
    Hitori.make lines = none := by
  rw [Hitori.make, if_neg]
  intro hall
  rw [List.all_eq_true] at hall
  obtain ⟨l, hl, hne⟩ := h
  have h2 := hall l hl
  simp only [beq_iff_eq] at h2
  exact hne h2

theorem C7_witness :
    (∃ l ∈ [['1', '2'], ['3']], l.length ≠ ([['1', '2'], ['3']].headD []).length) ∧
    Hitori.make [['1', '2'], ['3']] = none :=
  ⟨by decide, C7_make_ragged_fails [['1', '2'], ['3']] (by decide)⟩

/-- C8: `solve` is a deterministic pure function of its input: the result
set is entirely determined by the board's lines.  The embedding is a pure
function, so two invocations on boards with the same lines — in
particular, repeated invocations on the same board — produce the same
result set, and no global mutable state is involved. -/
theorem C8_solve_deterministic {b1 b2 : Hitori} (h : b1.lines = b2.lines) :
    solve b1 = solve b2 := by
  have he : b1 = b2 := by
    cases b1
    cases b2
    cases h
    rfl
  rw [he]

theorem C8_witness :
    (Hitori.mk [['1']]).lines = (Hitori.mk [['1']]).lines ∧
    solve (Hitori.mk [['1']]) = solve (Hitori.mk [['1']]) :=
  ⟨rfl, C8_solve_deterministic rfl⟩

/-- C9: on a rectangular board satisfying the adjacency invariant (no two
blanked cells orthogonally adjacent), blanking an in-range cell that is
already blank does not fail and returns a board equal to the receiver:
the cell's neighbours cannot be blank, so the adjacency guard passes, and
overwriting the cell with BLANK reproduces the same lines. -/
theorem C9_blank_already_blank_id {b : Hitori} (hwf : b.wf) (hadj : adjOK b)
    {x y : Nat} (hx : x < b.width) (hy : y < b.height)
    (hbl : b.is_blank (x : Int) (y : Int) = true) :
    b.blank (x : Int) (y : Int) = Except.ok b := by
  have h1 : b.is_blank ((x : Int) - 1) (y : Int) = false := by
    rcases Bool.eq_false_or_eq_true (b.is_blank ((x : Int) - 1) (y : Int)) with ht | hf
    · exfalso
      have hc := (hadj ((x : Int) - 1) (y : Int)).1
      rw [sub_add_cancel] at hc
      exact hc ⟨ht, hbl⟩
    · exact hf
  have h2 : b.is_blank ((x : Int) + 1) (y : Int) = false := by
    rcases Bool.eq_false_or_eq_true (b.is_blank ((x : Int) + 1) (y : Int)) with ht | hf
    · exact absurd ⟨hbl, ht⟩ (hadj (x : Int) (y : Int)).1
    · exact hf
  have h3 : b.is_blank (x : Int) ((y : Int) - 1) = false := by
    rcases Bool.eq_false_or_eq_true (b.is_blank (x : Int) ((y : Int) - 1)) with ht | hf
    · exfalso
      have hc := (hadj (x : Int) ((y : Int) - 1)).2
      rw [sub_add_cancel] at hc
      exact hc ⟨ht, hbl⟩
    · exact hf
  have h4 : b.is_blank (x : Int) ((y : Int) + 1) = false := by
    rcases Bool.eq_false_or_eq_true (b.is_blank (x : Int) ((y : Int) + 1)) with ht | hf
    · exact absurd ⟨hbl, ht⟩ (hadj (x : Int) (y : Int)).2
    · exact hf
  rw [blank_eq_ok h1 h2 h3 h4]
  simp only [Int.toNat_natCast]
  rw [blank_lines_eq_set hwf hx hy]
  have hg : b.getc (x : Int) (y : Int) = BLANK := (is_blank_inDims hbl).2.2.2.2
  have hvl : y < b.lines.length := hy
  have hrow : b.lines.getD y [] = b.lines[y] := List.getD_eq_getElem _ _ hvl
  have hxl : x < (b.lines[y]).length := by
    rw [← hrow, row_len hwf hy]
    exact hx
  have hcell : (b.lines[y])[x] = BLANK := by
    rw [getc_nat] at hg
    rw [hrow, List.getD_eq_getElem _ _ hxl] at hg
    exact hg
  have hrowset : (b.lines.getD y []).set x BLANK = b.lines.getD y [] := by
    rw [hrow]
    exact set_eq_self_of_getElem hxl hcell
  rw [hrowset, hrow, set_eq_self_of_getElem hvl rfl]

theorem C9_witness :
    (Hitori.mk [['#', '2'], ['3', '4']]).wf ∧
    adjOK (Hitori.mk [['#', '2'], ['3', '4']]) ∧
    0 < (Hitori.mk [['#', '2'], ['3', '4']]).width ∧
    0 < (Hitori.mk [['#', '2'], ['3', '4']]).height ∧
    (Hitori.mk [['#', '2'], ['3', '4']]).is_blank 0 0 = true ∧
    (Hitori.mk [['#', '2'], ['3', '4']]).blank 0 0 =
      Except.ok (Hitori.mk [['#', '2'], ['3', '4']]) :=
  ⟨by decide, adjOK_iff_bounded.mpr (by decide), by decide, by decide, by decide,
    C9_blank_already_blank_id (by decide) (adjOK_iff_bounded.mpr (by decide))
      (by decide) (by decide) (by decide)⟩

/-- C10: `connected` on two keys neither of which is tracked returns
`true`: `find` returns the same absent pair `(none, 0)` for both, and
`connected` only compares the two result pairs. -/
theorem C10_untracked_keys_connected {α : Type} [DecidableEq α] (u : UnionFind α)
    {a b : α} (ha : a ∉ u.keys) (hb : b ∉ u.keys) :
    (u.find a).1 = (none, 0) ∧ (u.find b).1 = (none, 0) ∧
    u.connected a b = true := by
  have hfa := find_not_mem ha
  have hfb := find_not_mem hb
  refine ⟨by rw [hfa], by rw [hfb], ?_⟩
  show decide ((u.find a).1 = ((u.find a).2.find b).1) = true
  have hstep : (u.find a).2.find b = ((none, 0), u) := by
    rw [hfa]
    exact hfb
  rw [hstep, hfa]
  exact decide_eq_true rfl

theorem C10_witness :
    (5 ∉ (UnionFind.init ([1, 2] : List Nat)).keys) ∧
    (7 ∉ (UnionFind.init ([1, 2] : List Nat)).keys) ∧
    (((UnionFind.init ([1, 2] : List Nat)).find 5).1 = (none, 0) ∧
      ((UnionFind.init ([1, 2] : List Nat)).find 7).1 = (none, 0) ∧
      (UnionFind.init ([1, 2] : List Nat)).connected 5 7 = true) :=
  ⟨by decide, by decide,
    C10_untracked_keys_connected (UnionFind.init [1, 2]) (by decide) (by decide)⟩
